import Mathlib

/-!
Verification of the portal-app task queue and idempotent execution engine.

This file gives a shallow embedding, in Lean 4, of the core of the
repository: the JSON value model used for encoding cached results and
arguments (JSON.stringify / JSON.parse on JSON-representable values), the
argument fingerprint (JsonArguments.hash), the DatabaseService cache and
durable-queue operations, Task.run (both a sequential model and a
cooperative interleaving machine for concurrency claims), the queue
drainer (runTask / processQueue / enqueueTask), the
WaitForRelaysConnected polling loop, and the provider-resolution step of
the Task constructor.  Theorems at the end settle the spec claims.
-/

set_option maxHeartbeats 1000000

namespace PortalApp

/-! ## JSON values

Model of the JSON-representable values exchanged through
JSON.stringify / JSON.parse in the engine: task results written to the
key_value_cache and decoded on cache hits.  Numbers are modelled as
integers (the engine's serialized payloads in scope here are integral;
JS floats are outside the model). -/

inductive Json where
  | null
  | bool (b : Bool)
  | num (n : Int)
  | str (s : String)
  | arr (elems : List Json)
  | obj (fields : List (String × Json))
deriving Inhabited

/-- Left brace character (written via its code point). -/
def lbrace : Char := Char.ofNat 123

/-- Right brace character (written via its code point). -/
def rbrace : Char := Char.ofNat 125

/-- Lower-case hexadecimal digit, as produced by JS \u escapes. -/
def hexDigitChar (n : Nat) : Char :=
  if n < 10 then Char.ofNat (48 + n) else Char.ofNat (87 + n)

/-- JSON.stringify escaping of a single character inside a string
literal: quote and backslash are backslash-escaped, the usual control
shorthands are used, the remaining control characters become \u00XX,
everything else is emitted verbatim. -/
def escChar (c : Char) : List Char :=
  if c = '"' then ['\\', '"']
  else if c = '\\' then ['\\', '\\']
  else if c = Char.ofNat 8 then ['\\', 'b']
  else if c = Char.ofNat 12 then ['\\', 'f']
  else if c = Char.ofNat 10 then ['\\', 'n']
  else if c = Char.ofNat 13 then ['\\', 'r']
  else if c = Char.ofNat 9 then ['\\', 't']
  else if c.toNat < 32 then
    ['\\', 'u', '0', '0', hexDigitChar (c.toNat / 16), hexDigitChar (c.toNat % 16)]
  else [c]

/-- Escape a whole character list. -/
def escList : List Char → List Char
  | [] => []
  | c :: cs => escChar c ++ escList cs

/-- Decimal digits of a natural number, most significant first. -/
def natChars (n : Nat) : List Char :=
  if n = 0 then ['0'] else (Nat.digits 10 n).reverse.map fun d => Char.ofNat (48 + d)

/-- Decimal rendering of an integer, as JSON.stringify prints integral
numbers. -/
def intChars (i : Int) : List Char :=
  if i < 0 then '-' :: natChars i.natAbs else natChars i.natAbs

/-- A JSON string literal: quoted and escaped. -/
def strChars (s : String) : List Char := '"' :: escList s.data ++ ['"']

mutual

/-- Characters produced by JSON.stringify on a JSON value. -/
def emit : Json → List Char
  | .null => "null".data
  | .bool true => "true".data
  | .bool false => "false".data
  | .num i => intChars i
  | .str s => strChars s
  | .arr l => '[' :: emitArr l ++ [']']
  | .obj l => lbrace :: emitObj l ++ [rbrace]

/-- Comma-separated array elements. -/
def emitArr : List Json → List Char
  | [] => []
  | [v] => emit v
  | v :: rest => emit v ++ ',' :: emitArr rest

/-- Comma-separated key:value object fields, in insertion order (JS
object key order). -/
def emitObj : List (String × Json) → List Char
  | [] => []
  | [(k, v)] => strChars k ++ ':' :: emit v
  | (k, v) :: rest => strChars k ++ ':' :: emit v ++ ',' :: emitObj rest

end

/-- JSON.stringify on the modelled value domain. -/
def stringify (v : Json) : String := String.mk (emit v)

/-- Greedy decimal-number scanner (the number production of JSON.parse,
restricted to the integral output of stringify). -/
def parseNatAux : List Char → Nat → Nat × List Char
  | [], acc => (acc, [])
  | c :: rest, acc =>
    if c.isDigit then parseNatAux rest (10 * acc + (c.toNat - 48)) else (acc, c :: rest)

/-- Inverse of the shorthand escapes. -/
def unescChar (c : Char) : Option Char :=
  if c = '"' then some '"'
  else if c = '\\' then some '\\'
  else if c = 'b' then some (Char.ofNat 8)
  else if c = 'f' then some (Char.ofNat 12)
  else if c = 'n' then some (Char.ofNat 10)
  else if c = 'r' then some (Char.ofNat 13)
  else if c = 't' then some (Char.ofNat 9)
  else none

/-- Value of a hexadecimal digit character. -/
def hexVal (c : Char) : Option Nat :=
  if 48 ≤ c.toNat ∧ c.toNat ≤ 57 then some (c.toNat - 48)
  else if 97 ≤ c.toNat ∧ c.toNat ≤ 102 then some (c.toNat - 87)
  else if 65 ≤ c.toNat ∧ c.toNat ≤ 70 then some (c.toNat - 55)
  else none

/-- Parse the body of a JSON string literal (after the opening quote),
returning the decoded characters and the remainder after the closing
quote. -/
def parseStr : List Char → Option (List Char × List Char)
  | [] => none
  | c :: rest =>
    if c = '"' then some ([], rest)
    else if c = '\\' then
      match rest with
      | [] => none
      | e :: rest1 =>
        if e = 'u' then
          match rest1 with
          | h1 :: h2 :: h3 :: h4 :: rest2 =>
            match hexVal h1, hexVal h2, hexVal h3, hexVal h4 with
            | some a, some b, some c3, some d =>
              (parseStr rest2).map fun p =>
                (Char.ofNat (((a * 16 + b) * 16 + c3) * 16 + d) :: p.1, p.2)
            | _, _, _, _ => none
          | _ => none
        else
          match unescChar e with
          | some ch => (parseStr rest1).map fun p => (ch :: p.1, p.2)
          | none => none
    else (parseStr rest).map fun p => (c :: p.1, p.2)
termination_by cs => cs.length
decreasing_by all_goals simp_arith

/-- Check that the input starts with the expected characters, returning
the remainder. -/
def expectChars : List Char → List Char → Option (List Char)
  | [], cs => some cs
  | _ :: _, [] => none
  | p :: ps, c :: cs => if c = p then expectChars ps cs else none

mutual

/-- Fuelled JSON value parser (JSON.parse restricted to the grammar
stringify emits: no insignificant whitespace). -/
def parseVal : Nat → List Char → Option (Json × List Char)
  | 0, _ => none
  | _ + 1, [] => none
  | fuel + 1, c :: cs =>
    if c = 'n' then (expectChars ['u', 'l', 'l'] cs).map fun r => (Json.null, r)
    else if c = 't' then (expectChars ['r', 'u', 'e'] cs).map fun r => (Json.bool true, r)
    else if c = 'f' then (expectChars ['a', 'l', 's', 'e'] cs).map fun r => (Json.bool false, r)
    else if c = '"' then (parseStr cs).map fun p => (Json.str (String.mk p.1), p.2)
    else if c = '[' then
      match cs with
      | [] => none
      | d :: rest =>
        if d = ']' then some (Json.arr [], rest)
        else (parseElems fuel (d :: rest)).map fun p => (Json.arr p.1, p.2)
    else if c = lbrace then
      match cs with
      | [] => none
      | d :: rest =>
        if d = rbrace then some (Json.obj [], rest)
        else (parseFields fuel (d :: rest)).map fun p => (Json.obj p.1, p.2)
    else if c = '-' then
      match cs with
      | [] => none
      | d :: rest =>
        if d.isDigit then
          let p := parseNatAux (d :: rest) 0
          some (Json.num (-(p.1 : Int)), p.2)
        else none
    else if c.isDigit then
      let p := parseNatAux (c :: cs) 0
      some (Json.num (p.1 : Int), p.2)
    else none

/-- One-or-more comma-separated array elements, consuming the closing
bracket. -/
def parseElems : Nat → List Char → Option (List Json × List Char)
  | 0, _ => none
  | fuel + 1, cs =>
    (parseVal fuel cs).bind fun p =>
      match p.2 with
      | [] => none
      | r0 :: rest =>
        if r0 = ',' then (parseElems fuel rest).map fun q => (p.1 :: q.1, q.2)
        else if r0 = ']' then some ([p.1], rest)
        else none

/-- One-or-more comma-separated object fields, consuming the closing
brace. -/
def parseFields : Nat → List Char → Option (List (String × Json) × List Char)
  | 0, _ => none
  | fuel + 1, cs =>
    match cs with
    | '"' :: cs1 =>
      (parseStr cs1).bind fun kp =>
        match kp.2 with
        | ':' :: cs2 =>
          (parseVal fuel cs2).bind fun p =>
            match p.2 with
            | [] => none
            | r0 :: rest =>
              if r0 = ',' then
                (parseFields fuel rest).map fun q => ((String.mk kp.1, p.1) :: q.1, q.2)
              else if r0 = rbrace then some ([(String.mk kp.1, p.1)], rest)
              else none
        | _ => none
    | _ => none

end

mutual

/-- Size measure driving the parser fuel. -/
def jsize : Json → Nat
  | .null => 1
  | .bool _ => 1
  | .num _ => 1
  | .str _ => 1
  | .arr l => 1 + jsizeArr l
  | .obj l => 1 + jsizeObj l

/-- Size of an element list. -/
def jsizeArr : List Json → Nat
  | [] => 0
  | v :: rest => 1 + jsize v + jsizeArr rest

/-- Size of a field list. -/
def jsizeObj : List (String × Json) → Nat
  | [] => 0
  | (_, v) :: rest => 1 + jsize v + jsizeObj rest

end

/-- JSON.parse on a whole string (no trailing input).  The fuel
exceeds the input length, which exceeds the size of any value the
input can render. -/
def parseJson (s : String) : Option Json :=
  (parseVal (s.data.length + 1) s.data).bind fun p => if p.2 = [] then some p.1 else none

/-- True when the input does not continue with a digit, so a greedy
number scan that stopped here was right to stop. -/
def noDigitHead : List Char → Bool
  | [] => true
  | c :: _ => !c.isDigit

/-! ### Round-trip: parseJson inverts stringify -/

theorem toNat_digitChar (d : Nat) (h : d < 10) : (Char.ofNat (48 + d)).toNat = 48 + d := by
  interval_cases d <;> decide

theorem isDigit_digitChar (d : Nat) (h : d < 10) : (Char.ofNat (48 + d)).isDigit = true := by
  interval_cases d <;> decide

theorem natChars_ne_nil (n : Nat) : natChars n ≠ [] := by
  unfold natChars
  split
  · simp
  · rename_i h
    have hd : Nat.digits 10 n ≠ [] := Nat.digits_ne_nil_iff_ne_zero.mpr h
    simp [hd]

theorem natChars_digits (n : Nat) : ∀ c ∈ natChars n, c.isDigit = true := by
  intro c hc
  unfold natChars at hc
  split at hc
  · simp at hc
    subst hc
    decide
  · simp only [List.mem_map, List.mem_reverse] at hc
    obtain ⟨d, hd, rfl⟩ := hc
    exact isDigit_digitChar d (Nat.digits_lt_base (by norm_num) hd)

theorem isDigit_toNat_range {c : Char} (h : c.isDigit = true) :
    48 ≤ c.toNat ∧ c.toNat ≤ 57 := by
  simp only [Char.isDigit, decide_eq_true_eq, Bool.and_eq_true] at h
  obtain ⟨h1, h2⟩ := h
  exact ⟨h1, h2⟩

/-- A digit character is none of the characters the parser dispatches
on before reaching the number branch, and none of the separators. -/
theorem isDigit_ne {c : Char} (h : c.isDigit = true) :
    c ≠ 'n' ∧ c ≠ 't' ∧ c ≠ 'f' ∧ c ≠ '"' ∧ c ≠ '[' ∧ c ≠ lbrace ∧ c ≠ '-' ∧
      c ≠ ']' ∧ c ≠ rbrace ∧ c ≠ ',' ∧ c ≠ ':' := by
  obtain ⟨h1, h2⟩ := isDigit_toNat_range h
  refine ⟨?_, ?_, ?_, ?_, ?_, ?_, ?_, ?_, ?_, ?_, ?_⟩ <;>
    (intro he; subst he; revert h1 h2; decide)

theorem foldl_digits_reverse (l : List Nat) (acc : Nat) :
    List.foldl (fun a d => 10 * a + d) acc l.reverse =
      acc * 10 ^ l.length + Nat.ofDigits 10 l := by
  induction l generalizing acc with
  | nil => simp
  | cons d t ih =>
    simp only [List.reverse_cons, List.foldl_append, List.foldl_cons, List.foldl_nil,
      List.length_cons, Nat.ofDigits_cons, ih]
    ring

theorem parseNatAux_append (ds : List Char) (rest : List Char) (acc : Nat)
    (hd : ∀ c ∈ ds, c.isDigit = true) (hr : noDigitHead rest = true) :
    parseNatAux (ds ++ rest) acc =
      (List.foldl (fun a c => 10 * a + (c.toNat - 48)) acc ds, rest) := by
  induction ds generalizing acc with
  | nil =>
    cases rest with
    | nil => simp [parseNatAux]
    | cons c t =>
      simp only [noDigitHead, Bool.not_eq_true'] at hr
      simp [parseNatAux, hr]
  | cons c t ih =>
    have hc : c.isDigit = true := hd c (by simp)
    simp only [List.cons_append, parseNatAux, hc, if_pos]
    exact ih _ fun x hx => hd x (by simp [hx])

theorem foldl_natChars (n : Nat) :
    List.foldl (fun a c => 10 * a + (c.toNat - 48)) 0 (natChars n) = n := by
  unfold natChars
  split
  · rename_i h; subst h; decide
  · rename_i h
    rw [List.foldl_map]
    have hcong :
        List.foldl (fun a d => 10 * a + ((Char.ofNat (48 + d)).toNat - 48)) 0
            (Nat.digits 10 n).reverse =
          List.foldl (fun a d => 10 * a + d) 0 (Nat.digits 10 n).reverse := by
      apply List.foldl_ext
      intro a d hdmem
      rw [List.mem_reverse] at hdmem
      rw [toNat_digitChar d (Nat.digits_lt_base (by norm_num) hdmem)]
      omega
    rw [hcong, foldl_digits_reverse]
    simpa using Nat.ofDigits_digits 10 n

theorem expectChars_append (p rest : List Char) : expectChars p (p ++ rest) = some rest := by
  induction p with
  | nil => simp [expectChars]
  | cons c t ih => simp [expectChars, ih]

theorem hexVal_hexDigitChar (m : Nat) (h : m < 16) : hexVal (hexDigitChar m) = some m := by
  interval_cases m <;> decide

theorem parseStr_quote (rest : List Char) : parseStr ('"' :: rest) = some ([], rest) := by
  rw [parseStr.eq_def]
  simp

theorem parseStr_raw (c : Char) (h1 : c ≠ '"') (h2 : c ≠ '\\') (cs : List Char) :
    parseStr (c :: cs) = (parseStr cs).map fun p => (c :: p.1, p.2) := by
  rw [parseStr.eq_def]
  simp [h1, h2]

theorem parseStr_esc (e ch : Char) (hu : e ≠ 'u') (h : unescChar e = some ch) (cs : List Char) :
    parseStr ('\\' :: e :: cs) = (parseStr cs).map fun p => (ch :: p.1, p.2) := by
  rw [parseStr.eq_def]
  simp only [if_neg (by decide : ¬ ('\\' : Char) = '"'), if_pos (rfl : ('\\' : Char) = '\\'),
    if_neg hu, h]
  simp

theorem parseStr_unicode (h1 h2 h3 h4 : Char) (a b c3 d : Nat)
    (ha : hexVal h1 = some a) (hb : hexVal h2 = some b) (hc : hexVal h3 = some c3)
    (hd : hexVal h4 = some d) (cs : List Char) :
    parseStr ('\\' :: 'u' :: h1 :: h2 :: h3 :: h4 :: cs) =
      (parseStr cs).map fun p =>
        (Char.ofNat (((a * 16 + b) * 16 + c3) * 16 + d) :: p.1, p.2) := by
  rw [parseStr.eq_def]
  simp only [if_neg (by decide : ¬ ('\\' : Char) = '"'), if_pos (rfl : ('\\' : Char) = '\\'),
    if_pos (rfl : ('u' : Char) = 'u'), ha, hb, hc, hd]
  simp

theorem parseStr_escList (cs : List Char) (rest : List Char) :
    parseStr (escList cs ++ '"' :: rest) = some (cs, rest) := by
  induction cs with
  | nil => simpa using parseStr_quote rest
  | cons c t ih =>
    simp only [escList, List.append_assoc]
    by_cases h1 : c = '"'
    · subst h1
      rw [show escChar '"' = ['\\', '"'] from rfl]
      simp only [List.cons_append, List.nil_append]
      rw [parseStr_esc '"' '"' (by decide) (by decide), ih]
      rfl
    by_cases h2 : c = '\\'
    · subst h2
      rw [show escChar '\\' = ['\\', '\\'] from rfl]
      simp only [List.cons_append, List.nil_append]
      rw [parseStr_esc '\\' '\\' (by decide) (by decide), ih]
      rfl
    by_cases h3 : c = Char.ofNat 8
    · subst h3
      rw [show escChar (Char.ofNat 8) = ['\\', 'b'] from rfl]
      simp only [List.cons_append, List.nil_append]
      rw [parseStr_esc 'b' (Char.ofNat 8) (by decide) (by decide), ih]
      rfl
    by_cases h4 : c = Char.ofNat 12
    · subst h4
      rw [show escChar (Char.ofNat 12) = ['\\', 'f'] from rfl]
      simp only [List.cons_append, List.nil_append]
      rw [parseStr_esc 'f' (Char.ofNat 12) (by decide) (by decide), ih]
      rfl
    by_cases h5 : c = Char.ofNat 10
    · subst h5
      rw [show escChar (Char.ofNat 10) = ['\\', 'n'] from rfl]
      simp only [List.cons_append, List.nil_append]
      rw [parseStr_esc 'n' (Char.ofNat 10) (by decide) (by decide), ih]
      rfl
    by_cases h6 : c = Char.ofNat 13
    · subst h6
      rw [show escChar (Char.ofNat 13) = ['\\', 'r'] from rfl]
      simp only [List.cons_append, List.nil_append]
      rw [parseStr_esc 'r' (Char.ofNat 13) (by decide) (by decide), ih]
      rfl
    by_cases h7 : c = Char.ofNat 9
    · subst h7
      rw [show escChar (Char.ofNat 9) = ['\\', 't'] from rfl]
      simp only [List.cons_append, List.nil_append]
      rw [parseStr_esc 't' (Char.ofNat 9) (by decide) (by decide), ih]
      rfl
    by_cases h8 : c.toNat < 32
    · have hdiv : c.toNat / 16 < 16 := by omega
      have hmod : c.toNat % 16 < 16 := by omega
      simp only [escChar, h1, h2, h3, h4, h5, h6, h7, h8, if_true, if_false,
        List.cons_append, List.nil_append, ite_true, ite_false, if_neg, not_false_iff]
      rw [parseStr_unicode '0' '0' (hexDigitChar (c.toNat / 16)) (hexDigitChar (c.toNat % 16))
        0 0 (c.toNat / 16) (c.toNat % 16) (by decide) (by decide)
        (hexVal_hexDigitChar _ hdiv) (hexVal_hexDigitChar _ hmod), ih]
      have harith : c.toNat / 16 * 16 + c.toNat % 16 = c.toNat := by omega
      simp [harith, Char.ofNat_toNat]
    · have hc : escChar c = [c] := by
        simp [escChar, h1, h2, h3, h4, h5, h6, h7, h8]
      rw [hc]
      simp only [List.cons_append, List.nil_append]
      rw [parseStr_raw c h1 h2, ih]
      rfl

theorem jsize_pos (v : Json) : 1 ≤ jsize v := by
  cases v <;> simp [jsize]

theorem jsizeArr_pos (l : List Json) (h : l ≠ []) : 1 ≤ jsizeArr l := by
  cases l with
  | nil => exact absurd rfl h
  | cons x xs => simp only [jsizeArr]; omega

theorem jsizeObj_pos (l : List (String × Json)) (h : l ≠ []) : 1 ≤ jsizeObj l := by
  cases l with
  | nil => exact absurd rfl h
  | cons x xs => obtain ⟨k, v⟩ := x; simp only [jsizeObj]; omega

/-- stringify output is never empty, and never begins with a closing
bracket, closing brace, comma or colon: the first character announces
the value's own shape. -/
theorem emit_head (v : Json) :
    ∃ c cs, emit v = c :: cs ∧ c ≠ ']' ∧ c ≠ rbrace ∧ c ≠ ',' ∧ c ≠ ':' := by
  cases v with
  | null => exact ⟨'n', _, rfl, by decide, by decide, by decide, by decide⟩
  | bool b =>
    cases b
    · exact ⟨'f', _, rfl, by decide, by decide, by decide, by decide⟩
    · exact ⟨'t', _, rfl, by decide, by decide, by decide, by decide⟩
  | num i =>
    by_cases hi : i < 0
    · exact ⟨'-', natChars i.natAbs, by simp [emit, intChars, hi], by decide, by decide,
        by decide, by decide⟩
    · obtain ⟨c, t, hct⟩ := List.exists_cons_of_ne_nil (natChars_ne_nil i.natAbs)
      have hcd : c.isDigit = true := natChars_digits _ c (by rw [hct]; exact List.mem_cons_self _ _)
      obtain ⟨-, -, -, -, -, -, -, hn1, hn2, hn3, hn4⟩ := isDigit_ne hcd
      exact ⟨c, t, by simp [emit, intChars, hi, hct], hn1, hn2, hn3, hn4⟩
  | str s => exact ⟨'"', escList s.data ++ ['"'], by simp [emit, strChars], by decide,
      by decide, by decide, by decide⟩
  | arr l => exact ⟨'[', emitArr l ++ [']'], by simp [emit], by decide, by decide, by decide,
      by decide⟩
  | obj l => exact ⟨lbrace, emitObj l ++ [rbrace], by simp [emit], by decide, by decide,
      by decide, by decide⟩

theorem parseVal_null (n : Nat) (rest : List Char) :
    parseVal (n + 1) (emit Json.null ++ rest) = some (Json.null, rest) := by
  simp [emit, parseVal, expectChars]

theorem parseVal_bool (n : Nat) (b : Bool) (rest : List Char) :
    parseVal (n + 1) (emit (Json.bool b) ++ rest) = some (Json.bool b, rest) := by
  cases b <;> simp [emit, parseVal, expectChars]

theorem parseVal_num (n : Nat) (i : Int) (rest : List Char) (hrest : noDigitHead rest = true) :
    parseVal (n + 1) (emit (Json.num i) ++ rest) = some (Json.num i, rest) := by
  by_cases hi : i < 0
  · obtain ⟨c, t, hct⟩ := List.exists_cons_of_ne_nil (natChars_ne_nil i.natAbs)
    have hcd : c.isDigit = true := natChars_digits _ c (by rw [hct]; exact List.mem_cons_self _ _)
    have he : emit (Json.num i) ++ rest = '-' :: c :: (t ++ rest) := by
      simp [emit, intChars, hi, hct]
    have hpn : parseNatAux (c :: (t ++ rest)) 0 = (i.natAbs, rest) := by
      have hsh : c :: (t ++ rest) = natChars i.natAbs ++ rest := by rw [hct]; rfl
      rw [hsh, parseNatAux_append _ _ _ (natChars_digits _) hrest, foldl_natChars]
    rw [he]
    simp only [parseVal]
    rw [if_neg (by decide : ¬ ('-' : Char) = 'n'), if_neg (by decide : ¬ ('-' : Char) = 't'),
      if_neg (by decide : ¬ ('-' : Char) = 'f'), if_neg (by decide : ¬ ('-' : Char) = '"'),
      if_neg (by decide : ¬ ('-' : Char) = '['), if_neg (by decide : ¬ ('-' : Char) = lbrace)]
    rw [if_pos trivial, if_pos hcd, hpn]
    simp [abs_of_neg hi]
  · obtain ⟨c, t, hct⟩ := List.exists_cons_of_ne_nil (natChars_ne_nil i.natAbs)
    have hcd : c.isDigit = true := natChars_digits _ c (by rw [hct]; exact List.mem_cons_self _ _)
    obtain ⟨hne1, hne2, hne3, hne4, hne5, hne6, hne7, -, -, -, -⟩ := isDigit_ne hcd
    have he : emit (Json.num i) ++ rest = c :: (t ++ rest) := by
      simp [emit, intChars, hi, hct]
    have hpn : parseNatAux (c :: (t ++ rest)) 0 = (i.natAbs, rest) := by
      have hsh : c :: (t ++ rest) = natChars i.natAbs ++ rest := by rw [hct]; rfl
      rw [hsh, parseNatAux_append _ _ _ (natChars_digits _) hrest, foldl_natChars]
    rw [he]
    simp only [parseVal]
    rw [if_neg hne1, if_neg hne2, if_neg hne3, if_neg hne4, if_neg hne5, if_neg hne6,
      if_neg hne7, if_pos hcd, hpn]
    simp [abs_of_nonneg (not_lt.mp hi)]

theorem parseVal_str (n : Nat) (s : String) (rest : List Char) :
    parseVal (n + 1) (emit (Json.str s) ++ rest) = some (Json.str s, rest) := by
  have he : emit (Json.str s) ++ rest = '"' :: (escList s.data ++ '"' :: rest) := by
    simp [emit, strChars]
  rw [he]
  simp only [parseVal]
  rw [if_neg (by decide : ¬ ('"' : Char) = 'n'), if_neg (by decide : ¬ ('"' : Char) = 't'),
    if_neg (by decide : ¬ ('"' : Char) = 'f')]
  rw [if_pos trivial, parseStr_escList]
  rfl

/-- Joint round-trip statement for values, array tails and object
tails, by induction on the parser fuel. -/
theorem parse_roundtrip (fuel : Nat) :
    (∀ v rest, jsize v ≤ fuel → noDigitHead rest = true →
      parseVal fuel (emit v ++ rest) = some (v, rest)) ∧
    (∀ l rest, l ≠ [] → jsizeArr l ≤ fuel →
      parseElems fuel (emitArr l ++ ']' :: rest) = some (l, rest)) ∧
    (∀ l rest, l ≠ [] → jsizeObj l ≤ fuel →
      parseFields fuel (emitObj l ++ rbrace :: rest) = some (l, rest)) := by
  induction fuel with
  | zero =>
    refine ⟨fun v rest h _ => absurd h (by have := jsize_pos v; omega),
      fun l rest hl h => absurd h (by have := jsizeArr_pos l hl; omega),
      fun l rest hl h => absurd h (by have := jsizeObj_pos l hl; omega)⟩
  | succ n ih =>
    obtain ⟨ihV, ihA, ihO⟩ := ih
    refine ⟨?_, ?_, ?_⟩
    · intro v rest hsz hrest
      cases v with
      | null => exact parseVal_null n rest
      | bool b => exact parseVal_bool n b rest
      | num i => exact parseVal_num n i rest hrest
      | str s => exact parseVal_str n s rest
      | arr l =>
        cases l with
        | nil =>
          have hsh : emit (Json.arr []) ++ rest = '[' :: ']' :: rest := by
            simp [emit, emitArr]
          rw [hsh]
          simp only [parseVal]
          rw [if_neg (by decide : ¬ ('[' : Char) = 'n'),
            if_neg (by decide : ¬ ('[' : Char) = 't'),
            if_neg (by decide : ¬ ('[' : Char) = 'f'),
            if_neg (by decide : ¬ ('[' : Char) = '"'), if_pos trivial]
          simp
        | cons x xs =>
          obtain ⟨c, cs0, hc, hne1, hne2, hne3, hne4⟩ := emit_head x
          have htl : ∃ tl, emitArr (x :: xs) = c :: tl := by
            cases xs with
            | nil => exact ⟨cs0, by simp [emitArr, hc]⟩
            | cons y ys => exact ⟨cs0 ++ ',' :: emitArr (y :: ys), by simp [emitArr, hc]⟩
          obtain ⟨tl, htl⟩ := htl
          have hsz2 : jsizeArr (x :: xs) ≤ n := by simp only [jsize] at hsz; omega
          have hsh : emit (Json.arr (x :: xs)) ++ rest = '[' :: c :: (tl ++ ']' :: rest) := by
            simp [emit, htl]
          rw [hsh]
          simp only [parseVal]
          rw [if_neg (by decide : ¬ ('[' : Char) = 'n'),
            if_neg (by decide : ¬ ('[' : Char) = 't'),
            if_neg (by decide : ¬ ('[' : Char) = 'f'),
            if_neg (by decide : ¬ ('[' : Char) = '"'), if_pos trivial]
          simp only [hne1, if_false, ite_false]
          rw [show c :: (tl ++ ']' :: rest) = emitArr (x :: xs) ++ ']' :: rest from by
            simp [htl]]
          rw [ihA (x :: xs) rest (by simp) hsz2]
          rfl
      | obj l =>
        cases l with
        | nil =>
          have hsh : emit (Json.obj []) ++ rest = lbrace :: rbrace :: rest := by
            simp [emit, emitObj]
          rw [hsh]
          simp only [parseVal]
          rw [if_neg (by decide : ¬ lbrace = 'n'), if_neg (by decide : ¬ lbrace = 't'),
            if_neg (by decide : ¬ lbrace = 'f'), if_neg (by decide : ¬ lbrace = '"'),
            if_neg (by decide : ¬ lbrace = '['), if_pos trivial]
          simp
        | cons kv xs =>
          obtain ⟨k, v⟩ := kv
          have htl : ∃ tl, emitObj ((k, v) :: xs) = '"' :: tl := by
            cases xs with
            | nil => exact ⟨escList k.data ++ '"' :: ':' :: emit v, by simp [emitObj, strChars]⟩
            | cons y ys =>
              exact ⟨escList k.data ++ '"' :: ':' :: (emit v ++ ',' :: emitObj (y :: ys)),
                by simp [emitObj, strChars]⟩
          obtain ⟨tl, htl⟩ := htl
          have hsz2 : jsizeObj ((k, v) :: xs) ≤ n := by simp only [jsize] at hsz; omega
          have hsh : emit (Json.obj ((k, v) :: xs)) ++ rest =
              lbrace :: '"' :: (tl ++ rbrace :: rest) := by
            simp [emit, htl]
          rw [hsh]
          simp only [parseVal]
          rw [if_neg (by decide : ¬ lbrace = 'n'), if_neg (by decide : ¬ lbrace = 't'),
            if_neg (by decide : ¬ lbrace = 'f'), if_neg (by decide : ¬ lbrace = '"'),
            if_neg (by decide : ¬ lbrace = '['), if_pos trivial]
          simp only [if_neg (by decide : ¬ ('"' : Char) = rbrace), ite_false]
          rw [show ('"' : Char) :: (tl ++ rbrace :: rest) = emitObj ((k, v) :: xs) ++
            rbrace :: rest from by simp [htl]]
          rw [ihO ((k, v) :: xs) rest (by simp) hsz2]
          rfl
    · intro l rest hl hsz
      cases l with
      | nil => exact absurd rfl hl
      | cons x xs =>
        cases xs with
        | nil =>
          have hx : jsize x ≤ n := by simp only [jsizeArr] at hsz; omega
          have hsh : emitArr [x] ++ ']' :: rest = emit x ++ ']' :: rest := by simp [emitArr]
          rw [hsh]
          simp only [parseElems]
          rw [ihV x (']' :: rest) hx rfl]
          simp
        | cons y ys =>
          have hx : jsize x ≤ n := by simp only [jsizeArr] at hsz; omega
          have hys : jsizeArr (y :: ys) ≤ n := by simp only [jsizeArr] at hsz ⊢; omega
          have hsh : emitArr (x :: y :: ys) ++ ']' :: rest =
              emit x ++ ',' :: (emitArr (y :: ys) ++ ']' :: rest) := by simp [emitArr]
          rw [hsh]
          simp only [parseElems]
          rw [ihV x (',' :: (emitArr (y :: ys) ++ ']' :: rest)) hx rfl]
          simp only [Option.some_bind]
          rw [if_pos trivial]
          rw [ihA (y :: ys) rest (by simp) hys]
          rfl
    · intro l rest hl hsz
      cases l with
      | nil => exact absurd rfl hl
      | cons kv xs =>
        obtain ⟨k, v⟩ := kv
        cases xs with
        | nil =>
          have hv : jsize v ≤ n := by simp only [jsizeObj] at hsz; omega
          have hsh : emitObj [(k, v)] ++ rbrace :: rest =
              '"' :: (escList k.data ++ '"' :: (':' :: (emit v ++ rbrace :: rest))) := by
            simp [emitObj, strChars]
          rw [hsh]
          simp only [parseFields]
          rw [parseStr_escList]
          simp only [Option.some_bind]
          rw [ihV v (rbrace :: rest) hv rfl]
          simp only [Option.some_bind]
          rw [if_neg (by decide : ¬ rbrace = ','), if_pos trivial]
        | cons y ys =>
          have hv : jsize v ≤ n := by simp only [jsizeObj] at hsz; omega
          have hys : jsizeObj (y :: ys) ≤ n := by simp only [jsizeObj] at hsz ⊢; omega
          have hsh : emitObj ((k, v) :: y :: ys) ++ rbrace :: rest =
              '"' :: (escList k.data ++ '"' ::
                (':' :: (emit v ++ ',' :: (emitObj (y :: ys) ++ rbrace :: rest)))) := by
            simp [emitObj, strChars]
          rw [hsh]
          simp only [parseFields]
          rw [parseStr_escList]
          simp only [Option.some_bind]
          rw [ihV v (',' :: (emitObj (y :: ys) ++ rbrace :: rest)) hv rfl]
          simp only [Option.some_bind]
          rw [if_pos trivial]
          rw [ihO (y :: ys) rest (by simp) hys]
          rfl

mutual

theorem jsize_le_emit (v : Json) : jsize v ≤ (emit v).length := by
  cases v with
  | null => simp [jsize, emit]
  | bool b => cases b <;> simp [jsize, emit]
  | num i =>
    have h1 : natChars i.natAbs ≠ [] := natChars_ne_nil i.natAbs
    have h2 : 1 ≤ (natChars i.natAbs).length := List.length_pos.mpr h1
    by_cases hi : i < 0 <;> simp [jsize, emit, intChars, hi] <;> omega
  | str s => simp [jsize, emit, strChars]
  | arr l =>
    have h := jsizeArr_le_emit l
    simp only [jsize, emit, List.length_cons, List.length_append, List.length_singleton]
    omega
  | obj l =>
    have h := jsizeObj_le_emit l
    simp only [jsize, emit, List.length_cons, List.length_append, List.length_singleton]
    omega

theorem jsizeArr_le_emit (l : List Json) : jsizeArr l ≤ (emitArr l).length + 1 := by
  cases l with
  | nil => simp [jsizeArr, emitArr]
  | cons x xs =>
    cases xs with
    | nil =>
      have h := jsize_le_emit x
      simp only [jsizeArr, emitArr, List.length_nil]
      omega
    | cons y ys =>
      have h1 := jsize_le_emit x
      have h2 := jsizeArr_le_emit (y :: ys)
      simp only [jsizeArr, emitArr, List.length_append, List.length_cons]
      simp only [jsizeArr] at h2
      omega

theorem jsizeObj_le_emit (l : List (String × Json)) : jsizeObj l ≤ (emitObj l).length + 1 := by
  cases l with
  | nil => simp [jsizeObj, emitObj]
  | cons kv xs =>
    obtain ⟨k, v⟩ := kv
    cases xs with
    | nil =>
      have h := jsize_le_emit v
      simp only [jsizeObj, emitObj, List.length_append, List.length_cons, List.length_nil]
      omega
    | cons y ys =>
      have h1 := jsize_le_emit v
      have h2 := jsizeObj_le_emit (y :: ys)
      simp only [jsizeObj, emitObj, List.length_append, List.length_cons]
      simp only [jsizeObj] at h2
      omega

end

/-- JSON.parse is a left inverse of JSON.stringify on the modelled
value domain: decoding an engine-written cache entry yields the value
the engine computed. -/
theorem parseJson_stringify (v : Json) : parseJson (stringify v) = some v := by
  have hlen : jsize v ≤ (emit v).length + 1 := le_trans (jsize_le_emit v) (by omega)
  have h := (parse_roundtrip ((emit v).length + 1)).1 v [] hlen rfl
  rw [List.append_nil] at h
  show (parseVal ((emit v).length + 1) (emit v)).bind
      (fun p => if p.2 = [] then some p.1 else none) = some v
  rw [h]
  simp

/-! ## Argument values and the fingerprint (JsonArguments.hash)

Model of the values an argument tuple can hold before serialization:
besides the JSON kinds these include bigints (serialized with a
BigInt(...) tag) and function values.  A function value carries an
identity index only so that two different functions can be written
down; the fingerprint must not depend on it (functions are replaced by
null in the serialized text). -/

inductive AVal where
  | null
  | bool (b : Bool)
  | num (n : Int)
  | str (s : String)
  | bigint (n : Int)
  | func (id : Nat)
  | arr (elems : List AVal)
  | obj (fields : List (String × AVal))
deriving Inhabited

/-- Leaves of the flattened argument record: everything whose typeof is
not 'object'. -/
inductive ALeaf where
  | bool (b : Bool)
  | num (n : Int)
  | str (s : String)
  | bigint (n : Int)
  | func (id : Nat)
deriving Inhabited, DecidableEq

mutual

/-- Size measure for the flattening recursion. -/
def asize : AVal → Nat
  | .arr l => 1 + asizeList l
  | .obj fs => 1 + asizeFields fs
  | _ => 1

def asizeList : List AVal → Nat
  | [] => 0
  | v :: r => 1 + asize v + asizeList r

def asizeFields : List (String × AVal) → Nat
  | [] => 0
  | (_, v) :: r => 1 + asize v + asizeFields r

end

/-- The own enumerable entries of a JS array: index keys "0", "1", ...
in order, as for..in produces them. -/
def indexed (i : Nat) : List AVal → List (String × AVal)
  | [] => []
  | v :: rest => (String.mk (natChars i), v) :: indexed (i + 1) rest

theorem asizeFields_indexed (i : Nat) (l : List AVal) :
    asizeFields (indexed i l) = asizeList l := by
  induction l generalizing i with
  | nil => rfl
  | cons v r ih => simp [indexed, asizeFields, asizeList, ih]

/-- flattenObject from JsonArguments.hash, applied to the entries of an
object: a value of typeof 'object' (null, array, object) is flattened
recursively and its inner keys are prefixed with the outer key and a
dot — note that flattening null yields no entries at all, so its key
disappears; any other value is kept as a leaf under its key,
in insertion order. -/
def flattenEntries : List (String × AVal) → List (String × ALeaf)
  | [] => []
  | (_, .null) :: rest => flattenEntries rest
  | (k, .bool b) :: rest => (k, ALeaf.bool b) :: flattenEntries rest
  | (k, .num n) :: rest => (k, ALeaf.num n) :: flattenEntries rest
  | (k, .str s) :: rest => (k, ALeaf.str s) :: flattenEntries rest
  | (k, .bigint n) :: rest => (k, ALeaf.bigint n) :: flattenEntries rest
  | (k, .func id) :: rest => (k, ALeaf.func id) :: flattenEntries rest
  | (k, .arr l) :: rest =>
    ((flattenEntries (indexed 0 l)).map fun p => (k ++ "." ++ p.1, p.2)) ++ flattenEntries rest
  | (k, .obj fs) :: rest =>
    ((flattenEntries fs).map fun p => (k ++ "." ++ p.1, p.2)) ++ flattenEntries rest
termination_by e => asizeFields e
decreasing_by
  all_goals simp only [asizeFields, asizeFields_indexed, asize]
  all_goals omega

/-- Rendering of a flattened leaf by JSON.stringify with the hash
replacer: functions become null, bigints become the tagged string
"BigInt(...)", the rest serialize as themselves. -/
def leafChars : ALeaf → List Char
  | .bool true => "true".data
  | .bool false => "false".data
  | .num i => intChars i
  | .str s => strChars s
  | .bigint n => strChars (String.mk ("BigInt(".data ++ intChars n ++ ")".data))
  | .func _ => "null".data

/-- The fields of the flattened record, serialized in insertion
order. -/
def hashFieldsChars : List (String × ALeaf) → List Char
  | [] => []
  | [(k, v)] => strChars k ++ ':' :: leafChars v
  | (k, v) :: rest => strChars k ++ ':' :: leafChars v ++ ',' :: hashFieldsChars rest

/-- The serialized text JsonArguments.hash feeds to SHA-256: the
argument tuple (a JS array) flattened to a single-level record and
serialized with the function/bigint replacer. -/
def hashText (args : List AVal) : String :=
  String.mk (lbrace :: hashFieldsChars (flattenEntries (indexed 0 args)) ++ [rbrace])

/-! ### SHA-256 over byte lists (the digest JsonArguments.hash uses) -/

/-- SHA-256 round constants. -/
def K256 : List Nat := [
  1116352408, 1899447441, 3049323471, 3921009573, 961987163, 1508970993,
  2453635748, 2870763221, 3624381080, 310598401, 607225278, 1426881987,
  1925078388, 2162078206, 2614888103, 3248222580, 3835390401, 4022224774,
  264347078, 604807628, 770255983, 1249150122, 1555081692, 1996064986,
  2554220882, 2821834349, 2952996808, 3210313671, 3336571891, 3584528711,
  113926993, 338241895, 666307205, 773529912, 1294757372, 1396182291,
  1695183700, 1986661051, 2177026350, 2456956037, 2730485921, 2820302411,
  3259730800, 3345764771, 3516065817, 3600352804, 4094571909, 275423344,
  430227734, 506948616, 659060556, 883997877, 958139571, 1322822218,
  1537002063, 1747873779, 1955562222, 2024104815, 2227730452, 2361852424,
  2428436474, 2756734187, 3204031479, 3329325298
]

/-- SHA-256 initial hash state. -/
def H256 : List Nat := [
  1779033703, 3144134277, 1013904242, 2773480762, 1359893119, 2600822924,
  528734635, 1541459225
]

/-- 32-bit rotate right on a word below 2^32. -/
def rotr32 (x n : Nat) : Nat := ((x >>> n) ||| (x <<< (32 - n))) % 4294967296

/-- Big-endian byte rendering on a fixed width. -/
def beBytes : Nat → Nat → List Nat
  | 0, _ => []
  | k + 1, x => beBytes k (x / 256) ++ [x % 256]

/-- SHA-256 message padding: 0x80, zeros to 56 mod 64, then the bit
length on 8 big-endian bytes. -/
def sha256Pad (msg : List Nat) : List Nat :=
  let z := (120 - ((msg.length + 1) % 64)) % 64
  msg ++ [128] ++ List.replicate z 0 ++ beBytes 8 (8 * msg.length)

/-- Split into 64-byte blocks. -/
def chunks64 (l : List Nat) : List (List Nat) :=
  if h : l = [] then [] else (l.take 64) :: chunks64 (l.drop 64)
termination_by l.length
decreasing_by
  simp only [List.length_drop]
  have : 0 < l.length := List.length_pos.mpr h
  omega

/-- Big-endian 32-bit words from bytes. -/
def beWords : List Nat → List Nat
  | b0 :: b1 :: b2 :: b3 :: rest => (((b0 * 256 + b1) * 256 + b2) * 256 + b3) :: beWords rest
  | _ => []

/-- The small sigma functions of the message schedule. -/
def ssig0 (x : Nat) : Nat := (rotr32 x 7) ^^^ (rotr32 x 18) ^^^ (x >>> 3)

def ssig1 (x : Nat) : Nat := (rotr32 x 17) ^^^ (rotr32 x 19) ^^^ (x >>> 10)

/-- The big sigma functions of the compression loop. -/
def bsig0 (x : Nat) : Nat := (rotr32 x 2) ^^^ (rotr32 x 13) ^^^ (rotr32 x 22)

def bsig1 (x : Nat) : Nat := (rotr32 x 6) ^^^ (rotr32 x 11) ^^^ (rotr32 x 25)

/-- Extend the 16 block words to the 64 schedule words. -/
def scheduleAux (w : Array Nat) : Nat → Array Nat
  | 0 => w
  | k + 1 =>
    let i := w.size
    scheduleAux
      (w.push ((ssig1 w[i - 2]! + w[i - 7]! + ssig0 w[i - 15]! + w[i - 16]!) % 4294967296)) k

/-- One SHA-256 compression of a 64-byte block into the running
state. -/
def sha256Compress (h : List Nat) (block : List Nat) : List Nat :=
  let ws := (scheduleAux (Array.mk (beWords block)) 48).toList
  let fin := (K256.zip ws).foldl
    (fun st kw =>
      match st with
      | [a, b, c, d, e, f, g, hh] =>
        let ch := (e &&& f) ^^^ ((e ^^^ 4294967295) &&& g)
        let t1 := (hh + bsig1 e + ch + kw.1 + kw.2) % 4294967296
        let maj := (a &&& b) ^^^ (a &&& c) ^^^ (b &&& c)
        let t2 := (bsig0 a + maj) % 4294967296
        [(t1 + t2) % 4294967296, a, b, c, (d + t1) % 4294967296, e, f, g]
      | other => other)
    h
  (h.zip fin).map fun p => (p.1 + p.2) % 4294967296

/-- SHA-256 digest (32 bytes) of a byte list. -/
def sha256 (msg : List Nat) : List Nat :=
  ((chunks64 (sha256Pad msg)).foldl sha256Compress H256).foldr
    (fun w acc => beBytes 4 w ++ acc) []

/-- UTF-8 bytes of one character. -/
def utf8Char (c : Char) : List Nat :=
  let n := c.toNat
  if n < 128 then [n]
  else if n < 2048 then [192 + n / 64, 128 + n % 64]
  else if n < 65536 then [224 + n / 4096, 128 + (n / 64) % 64, 128 + n % 64]
  else [240 + n / 262144, 128 + (n / 4096) % 64, 128 + (n / 64) % 64, 128 + n % 64]

/-- UTF-8 bytes of a string (how the Sha256 class consumes its string
input). -/
def utf8Str (s : String) : List Nat :=
  s.data.foldr (fun c acc => utf8Char c ++ acc) []

/-- Uint8Array.toString: the digest bytes joined with commas, in
decimal. -/
def bytesToString : List Nat → String
  | [] => ""
  | [b] => String.mk (natChars b)
  | b :: rest => String.mk (natChars b) ++ "," ++ bytesToString rest

/-- JsonArguments.hash: flatten the argument tuple into a single-level
record, serialize it with large integers tagged and functions nulled,
digest the text with SHA-256, and render the digest byte array with
Uint8Array.toString. -/
def jsonArgumentsHash (args : List AVal) : String :=
  bytesToString (sha256 (utf8Str (hashText args)))

/-! ### Function leaves do not reach the digest -/

mutual

/-- Canonicalize every function value to the function with identity 0:
two argument tuples differ only in function-valued leaves exactly when
they erase to the same tuple. -/
def eraseFunc : AVal → AVal
  | .func _ => .func 0
  | .arr l => .arr (eraseList l)
  | .obj fs => .obj (eraseFields fs)
  | v => v

/-- Erase functions across a list of values. -/
def eraseList : List AVal → List AVal
  | [] => []
  | v :: r => eraseFunc v :: eraseList r

/-- Erase functions across object fields. -/
def eraseFields : List (String × AVal) → List (String × AVal)
  | [] => []
  | (k, v) :: r => (k, eraseFunc v) :: eraseFields r

end

/-- Erasure on flattened leaves. -/
def eraseLeaf : ALeaf → ALeaf
  | .func _ => .func 0
  | l => l

theorem indexed_eraseList (i : Nat) (l : List AVal) :
    indexed i (eraseList l) = eraseFields (indexed i l) := by
  induction l generalizing i with
  | nil => rfl
  | cons v r ih => simp [indexed, eraseList, eraseFields, ih]

theorem leafChars_eraseLeaf (v : ALeaf) : leafChars (eraseLeaf v) = leafChars v := by
  cases v <;> rfl

theorem flattenEntries_erase (m : Nat) :
    ∀ e : List (String × AVal), asizeFields e ≤ m →
      flattenEntries (eraseFields e) =
        (flattenEntries e).map fun p => (p.1, eraseLeaf p.2) := by
  induction m with
  | zero =>
    intro e he
    cases e with
    | nil => simp [eraseFields, flattenEntries]
    | cons kv r =>
      obtain ⟨k, v⟩ := kv
      simp only [asizeFields] at he
      omega
  | succ n ih =>
    intro e he
    match e with
    | [] => simp [eraseFields, flattenEntries]
    | (k, .null) :: rest =>
      simp only [asizeFields, asize] at he
      simp only [eraseFields, eraseFunc, flattenEntries]
      exact ih rest (by omega)
    | (k, .bool b) :: rest =>
      simp only [asizeFields, asize] at he
      simp only [eraseFields, eraseFunc, flattenEntries, List.map_cons]
      rw [show eraseLeaf (ALeaf.bool b) = ALeaf.bool b from rfl, ih rest (by omega)]
    | (k, .num v) :: rest =>
      simp only [asizeFields, asize] at he
      simp only [eraseFields, eraseFunc, flattenEntries, List.map_cons]
      rw [show eraseLeaf (ALeaf.num v) = ALeaf.num v from rfl, ih rest (by omega)]
    | (k, .str s) :: rest =>
      simp only [asizeFields, asize] at he
      simp only [eraseFields, eraseFunc, flattenEntries, List.map_cons]
      rw [show eraseLeaf (ALeaf.str s) = ALeaf.str s from rfl, ih rest (by omega)]
    | (k, .bigint v) :: rest =>
      simp only [asizeFields, asize] at he
      simp only [eraseFields, eraseFunc, flattenEntries, List.map_cons]
      rw [show eraseLeaf (ALeaf.bigint v) = ALeaf.bigint v from rfl, ih rest (by omega)]
    | (k, .func id) :: rest =>
      simp only [asizeFields, asize] at he
      simp only [eraseFields, eraseFunc, flattenEntries, List.map_cons]
      rw [show eraseLeaf (ALeaf.func id) = ALeaf.func 0 from rfl, ih rest (by omega)]
    | (k, .arr l) :: rest =>
      simp only [asizeFields, asize] at he
      have hl : asizeFields (indexed 0 l) ≤ n := by rw [asizeFields_indexed]; omega
      have hr : asizeFields rest ≤ n := by omega
      simp only [eraseFields, eraseFunc, flattenEntries, indexed_eraseList,
        ih (indexed 0 l) hl, ih rest hr, List.map_append, List.map_map]
      rfl
    | (k, .obj fs) :: rest =>
      simp only [asizeFields, asize] at he
      have hf : asizeFields fs ≤ n := by omega
      have hr : asizeFields rest ≤ n := by omega
      simp only [eraseFields, eraseFunc, flattenEntries,
        ih fs hf, ih rest hr, List.map_append, List.map_map]
      rfl

theorem hashFieldsChars_erase (f : List (String × ALeaf)) :
    hashFieldsChars (f.map fun p => (p.1, eraseLeaf p.2)) = hashFieldsChars f := by
  induction f with
  | nil => rfl
  | cons x r ih =>
    obtain ⟨k, v⟩ := x
    cases r with
    | nil => simp [hashFieldsChars, leafChars_eraseLeaf]
    | cons y t =>
      obtain ⟨k2, v2⟩ := y
      simp only [List.map_cons] at ih ⊢
      simp only [hashFieldsChars, leafChars_eraseLeaf, ih]

/-- The serialized text, hence the digest, is invariant under erasing
function identities. -/
theorem hashText_erase (args : List AVal) : hashText (eraseList args) = hashText args := by
  unfold hashText
  rw [indexed_eraseList, flattenEntries_erase (asizeFields (indexed 0 args)) _ le_rfl,
    hashFieldsChars_erase]

theorem jsonArgumentsHash_erase (args : List AVal) :
    jsonArgumentsHash (eraseList args) = jsonArgumentsHash args := by
  unfold jsonArgumentsHash
  rw [hashText_erase]

/-! ## DatabaseService: key-value cache and durable queue

Shallow embedding of the storage operations the engine uses, modelled
over the SQLite schema: key_value_cache(key PRIMARY KEY, value,
expires_at) and queued_tasks(id AUTOINCREMENT, task_name, arguments,
added_at, expires_at, priority). -/

/-- Math.floor(ms / 1000): toUnixSeconds on a millisecond timestamp. -/
def toUnixSeconds (ms : Int) : Int := Int.fdiv ms 1000

structure CacheEntry where
  key : String
  value : String
  expires_at : Option Int
deriving DecidableEq

structure QueuedTaskRecord where
  id : Nat
  task_name : String
  arguments : String
  added_at : Int
  expires_at : Option Int
  priority : Int
deriving DecidableEq

/-- The storage state: cache rows, queue rows, and the AUTOINCREMENT
counter of queued_tasks (the first insert into an empty table receives
id 1). -/
structure DbState where
  cache : List CacheEntry
  queue : List QueuedTaskRecord
  nextId : Nat
deriving DecidableEq

/-- The liveness filter both reads share:
expires_at IS NULL OR expires_at > now. -/
def liveAt (expiresAt : Option Int) (now : Int) : Bool :=
  match expiresAt with
  | none => true
  | some t => now < t

/-- DatabaseService.getCache: the row for the key passing the liveness
filter, at now = toUnixSeconds(Date.now()); the JS
`record?.value || null` collapses an empty string to a miss. -/
def getCache (db : DbState) (key : String) (nowMs : Int) : Option String :=
  let now := toUnixSeconds nowMs
  match db.cache.find? (fun e => e.key == key && liveAt e.expires_at now) with
  | some e => if e.value = "" then none else some e.value
  | none => none

/-- DatabaseService.setCache: INSERT OR REPLACE on the primary key; a
concrete expiry timestamp (milliseconds) is stored as unix seconds,
null / 'forever' store NULL. -/
def setCache (db : DbState) (key value : String) (expiresAt : Option Int) : DbState :=
  { db with cache := db.cache.filter (fun e => e.key != key) ++
      [{ key := key, value := value, expires_at := expiresAt.map toUnixSeconds }] }

/-- DatabaseService.addQueuedTask: INSERT with added_at now (seconds),
expires_at converted to seconds (NULL for null / 'forever'), returning
lastInsertRowId. -/
def addQueuedTask (db : DbState) (taskName argumentsJson : String)
    (expiresAt : Option Int) (priority : Int) (nowMs : Int) : Nat × DbState :=
  let row : QueuedTaskRecord :=
    { id := db.nextId, task_name := taskName, arguments := argumentsJson,
      added_at := toUnixSeconds nowMs, expires_at := expiresAt.map toUnixSeconds,
      priority := priority }
  (db.nextId, { db with queue := db.queue ++ [row], nextId := db.nextId + 1 })

/-- Strict order of the queue scan: priority DESC, added_at ASC. -/
def queueBefore (a b : QueuedTaskRecord) : Bool :=
  b.priority < a.priority || (a.priority == b.priority && a.added_at < b.added_at)

/-- One step of the LIMIT 1 scan: keep the better of the best row so
far and the next row, preferring the earlier row on ties. -/
def pickBest (best : Option QueuedTaskRecord) (r : QueuedTaskRecord) :
    Option QueuedTaskRecord :=
  match best with
  | none => some r
  | some b => if queueBefore r b then some r else some b

/-- DatabaseService.extractNextQueuedTask: the first row of
SELECT ... WHERE the liveness filter holds ORDER BY priority DESC,
added_at ASC LIMIT 1 — without deleting it.  Rows tied on
(priority, added_at) keep table order. -/
def extractNextQueuedTask (db : DbState) (nowMs : Int) : Option QueuedTaskRecord :=
  let now := toUnixSeconds nowMs
  (db.queue.filter (fun r => liveAt r.expires_at now)).foldl pickBest none

/-- DatabaseService.deleteQueuedTask. -/
def deleteQueuedTask (db : DbState) (id : Nat) : DbState :=
  { db with queue := db.queue.filter (fun r => r.id != id) }

/-! ## Task: memoized unit of work -/

/-- The data of a Task instance that run()/serialize() consume: the
constructor name, the argument tuple, and the expiry policy (none =
'forever', some ms = a concrete Date). -/
structure TaskModel where
  name : String
  args : List AVal
  expiry : Option Int

/-- The memoization key: `${this.constructor.name}:${this.args.hash()}`. -/
def taskKey (t : TaskModel) : String := t.name ++ ":" ++ jsonArgumentsHash t.args

/-- JSON.parse on a cached string; a malformed string surfaces as the
thrown SyntaxError. -/
def decodeCached (s : String) : Except String Json :=
  match parseJson s with
  | some v => .ok v
  | none => .error "SyntaxError"

/-- The in-memory engine state around the database: the keys of the
module-level locksMap. -/
structure EngineState where
  db : DbState
  locks : List String
deriving DecidableEq

/-- Task.run for a call with no interleaved callers (concurrency has
its own machine below).  Returns none when an in-flight entry for the
key already exists — such a call only awaits another caller's promise
and cannot settle by itself.  Otherwise: on a cache hit, return the
decoded hit with no state change and no body execution; on a miss run
the body, and on success write JSON.stringify of the data to the cache
under the task's expiry and return it, on failure re-throw — in both
cases the transient locksMap entry is removed again by the finally
block, so the lock set is unchanged.  The last component counts body
executions (0 or 1). -/
def runSeq (t : TaskModel) (body : Except String Json) (st : EngineState) (nowMs : Int) :
    Option (Except String Json × EngineState × Nat) :=
  match getCache st.db (taskKey t) nowMs with
  | some cached => some (decodeCached cached, st, 0)
  | none =>
    if st.locks.contains (taskKey t) then none
    else
      match body with
      | .ok data =>
        some (.ok data, { st with db := setCache st.db (taskKey t) (stringify data) t.expiry }, 1)
      | .error e => some (.error e, st, 1)

mutual

/-- JSON.stringify of an argument value under serialize()'s replacer:
functions become null, bigints become the tagged string. -/
def avalChars : AVal → List Char
  | .null => "null".data
  | .bool true => "true".data
  | .bool false => "false".data
  | .num i => intChars i
  | .str s => strChars s
  | .bigint n => strChars (String.mk ("BigInt(".data ++ intChars n ++ ")".data))
  | .func _ => "null".data
  | .arr l => '[' :: avalArrChars l ++ [']']
  | .obj fs => lbrace :: avalObjChars fs ++ [rbrace]

/-- Array elements of the encoded tuple. -/
def avalArrChars : List AVal → List Char
  | [] => []
  | [v] => avalChars v
  | v :: rest => avalChars v ++ ',' :: avalArrChars rest

/-- Object fields of the encoded tuple. -/
def avalObjChars : List (String × AVal) → List Char
  | [] => []
  | [(k, v)] => strChars k ++ ':' :: avalChars v
  | (k, v) :: rest => strChars k ++ ':' :: avalChars v ++ ',' :: avalObjChars rest

end

/-- Task.serialize: a queue record carrying the placeholder id 0, the
constructor name, the encoded argument tuple (a top-level JSON array),
added_at now in unix seconds, expires_at as Date.getTime()
milliseconds (null for 'forever'), priority 0. -/
def serializeTask (t : TaskModel) (nowMs : Int) : QueuedTaskRecord :=
  { id := 0, task_name := t.name,
    arguments := String.mk ('[' :: avalArrChars t.args ++ [']']),
    added_at := toUnixSeconds nowMs,
    expires_at := t.expiry,
    priority := 0 }

/-! ## Queue drainer and enqueue-and-run -/

/-- runTask: Task.deserialize(record) followed by run(), abstracted by
each record's outcome (a deserialization error — unknown task name,
malformed arguments — and a thrown body both yield an error); then
delete the record's id from the queue whether the attempt succeeded or
threw; a throw is logged and re-thrown.  The abstracted execution does
not touch the queue itself. -/
def runTask (db : DbState) (r : QueuedTaskRecord)
    (exec : QueuedTaskRecord → Except String Json) : Except String Json × DbState :=
  match exec r with
  | .ok v => (.ok v, deleteQueuedTask db r.id)
  | .error e => (.error e, deleteQueuedTask db r.id)

theorem runTask_db (db : DbState) (r : QueuedTaskRecord)
    (exec : QueuedTaskRecord → Except String Json) :
    (runTask db r exec).2 = deleteQueuedTask db r.id := by
  unfold runTask
  cases exec r <;> rfl

theorem length_filter_lt {α : Type} (l : List α) (p : α → Bool) (x : α)
    (hx : x ∈ l) (hpx : p x = false) : (l.filter p).length < l.length := by
  induction l with
  | nil => cases hx
  | cons y ys ih =>
    rcases List.mem_cons.mp hx with h | h
    · subst h
      simp only [List.filter_cons, hpx, Bool.false_eq_true, if_false, List.length_cons]
      have := List.length_filter_le p ys
      omega
    · by_cases hy : p y
      · simp only [List.filter_cons, hy, if_pos, List.length_cons]
        exact Nat.succ_lt_succ (ih h)
      · simp only [Bool.not_eq_true] at hy
        simp only [List.filter_cons, hy, Bool.false_eq_true, if_false, List.length_cons]
        have := List.length_filter_le p ys
        omega

theorem extractNext_pick_mem {l : List QueuedTaskRecord} :
    ∀ {acc : Option QueuedTaskRecord} {r : QueuedTaskRecord},
      l.foldl pickBest acc = some r → acc = some r ∨ r ∈ l := by
  induction l with
  | nil => exact fun h => Or.inl h
  | cons x xs ih =>
    intro acc r h
    rw [List.foldl_cons] at h
    cases acc with
    | none =>
      rcases ih (show xs.foldl pickBest (some x) = some r from h) with h2 | h2
      · exact Or.inr (by simp [← Option.some.injEq x r |>.mp h2, List.mem_cons])
      · exact Or.inr (List.mem_cons_of_mem x h2)
    | some b =>
      have h' : xs.foldl pickBest (if queueBefore x b then some x else some b) = some r := h
      by_cases hq : queueBefore x b
      · rw [if_pos hq] at h'
        rcases ih h' with h2 | h2
        · exact Or.inr (by simp [← Option.some.injEq x r |>.mp h2, List.mem_cons])
        · exact Or.inr (List.mem_cons_of_mem x h2)
      · rw [if_neg hq] at h'
        rcases ih h' with h2 | h2
        · exact Or.inl h2
        · exact Or.inr (List.mem_cons_of_mem x h2)

/-- extractNextQueuedTask only returns rows of the table. -/
theorem extractNext_mem {db : DbState} {nowMs : Int} {r : QueuedTaskRecord}
    (h : extractNextQueuedTask db nowMs = some r) : r ∈ db.queue := by
  unfold extractNextQueuedTask at h
  rcases extractNext_pick_mem h with h2 | h2
  · cases h2
  · exact (List.mem_filter.mp h2).1

/-- Deleting the extracted record strictly shrinks the queue. -/
theorem delete_extracted_length {db : DbState} {nowMs : Int} {r : QueuedTaskRecord}
    (h : extractNextQueuedTask db nowMs = some r) :
    (deleteQueuedTask db r.id).queue.length < db.queue.length :=
  length_filter_lt _ _ r (extractNext_mem h) (by simp [bne])

/-- The body of the processQueue while loop, indexed by a fuel bound
on the number of iterations (each iteration deletes the extracted
record, so the queue length bounds the iteration count and the fuel is
never exhausted — processQueue_unfold below recovers the loop's exact
recurrence).  A throwing record stops the loop: there is no catch
between runTask and the while loop, so the error propagates out.  The
last component lists the ids handed to runTask, in order. -/
def processQueueAux (exec : QueuedTaskRecord → Except String Json) (nowMs : Int) :
    Nat → DbState → Except String Unit × DbState × List Nat
  | 0, db => (.ok (), db, [])
  | fuel + 1, db =>
    match extractNextQueuedTask db nowMs with
    | none => (.ok (), db, [])
    | some r =>
      match runTask db r exec with
      | (.ok _, db2) =>
        let rest := processQueueAux exec nowMs fuel db2
        (rest.1, rest.2.1, r.id :: rest.2.2)
      | (.error e, db2) => (.error e, db2, [r.id])

/-- processQueue: repeatedly extract the next record and runTask it
(which deletes it) until extraction returns null. -/
def processQueue (db : DbState) (exec : QueuedTaskRecord → Except String Json)
    (nowMs : Int) : Except String Unit × DbState × List Nat :=
  processQueueAux exec nowMs (db.queue.length + 1) db

/-- The fuel does not matter as long as it exceeds the queue length. -/
theorem processQueueAux_irrel (exec : QueuedTaskRecord → Except String Json) (nowMs : Int) :
    ∀ (f1 f2 : Nat) (db : DbState), db.queue.length < f1 → db.queue.length < f2 →
      processQueueAux exec nowMs f1 db = processQueueAux exec nowMs f2 db := by
  intro f1
  induction f1 with
  | zero => intro f2 db h1; omega
  | succ g1 ih =>
    intro f2 db h1 h2
    cases f2 with
    | zero => omega
    | succ g2 =>
      simp only [processQueueAux]
      cases hx : extractNextQueuedTask db nowMs with
      | none => rfl
      | some r =>
        have hlen := delete_extracted_length hx
        cases he : exec r with
        | ok v =>
          simp only [runTask, he]
          rw [ih g2 (deleteQueuedTask db r.id) (by omega) (by omega)]
        | error e =>
          simp only [runTask, he]

/-- One step of the fuelled loop, with the recursive call re-fuelled:
the recurrence of the source's while(true) loop. -/
theorem processQueueAux_unfold (exec : QueuedTaskRecord → Except String Json) (nowMs : Int)
    (f : Nat) (db : DbState) (hf : db.queue.length < f) :
    processQueueAux exec nowMs f db =
      match extractNextQueuedTask db nowMs with
      | none => (.ok (), db, [])
      | some r =>
        match runTask db r exec with
        | (.ok _, db2) =>
          let rest := processQueueAux exec nowMs (db2.queue.length + 1) db2
          (rest.1, rest.2.1, r.id :: rest.2.2)
        | (.error e, db2) => (.error e, db2, [r.id])
  := by
  cases f with
  | zero => omega
  | succ g =>
    conv_lhs => rw [processQueueAux]
    cases hx : extractNextQueuedTask db nowMs with
    | none => rfl
    | some r =>
      have hlen := delete_extracted_length hx
      cases he : exec r with
      | ok v =>
        simp only [runTask, he]
        rw [processQueueAux_irrel exec nowMs g
          ((deleteQueuedTask db r.id).queue.length + 1) (deleteQueuedTask db r.id)
          (by omega) (by omega)]
      | error e =>
        simp only [runTask, he]

/-- processQueue satisfies the recurrence of the source's while(true)
loop. -/
theorem processQueue_unfold (db : DbState) (exec : QueuedTaskRecord → Except String Json)
    (nowMs : Int) :
    processQueue db exec nowMs =
      match extractNextQueuedTask db nowMs with
      | none => (.ok (), db, [])
      | some r =>
        match runTask db r exec with
        | (.ok _, db2) =>
          let rest := processQueue db2 exec nowMs
          (rest.1, rest.2.1, r.id :: rest.2.2)
        | (.error e, db2) => (.error e, db2, [r.id])
  := processQueueAux_unfold exec nowMs (db.queue.length + 1) db (by omega)

/-- enqueueTask: serialize the task, insert the record into
queued_tasks (obtaining a fresh row id that is only logged), then
immediately run-and-delete the serialized record inline — which still
carries the placeholder id 0. -/
def enqueueTask (t : TaskModel) (exec : QueuedTaskRecord → Except String Json)
    (db : DbState) (nowMs : Int) : Except String Json × DbState :=
  let r := serializeTask t nowMs
  let ins := addQueuedTask db r.task_name r.arguments r.expires_at r.priority nowMs
  runTask ins.2 r exec

/-! ## WaitForRelaysConnected -/

/-- The body of WaitForRelaysConnectedTask: while the counter is below
5, poll the connectivity probe (one CheckRelayStatusTask().run() per
iteration); a connected report resolves; otherwise sleep 1000 ms,
increment and continue; falling out of the loop throws.  Returns
whether it resolved, the number of polls made, and the sleeps (ms)
performed. -/
def waitForRelaysLoop (probe : Nat → Bool) (count polls : Nat) (sleeps : List Nat) :
    Bool × Nat × List Nat :=
  if count < 5 then
    if probe polls then (true, polls + 1, sleeps)
    else waitForRelaysLoop probe (count + 1) (polls + 1) (sleeps ++ [1000])
  else (false, polls, sleeps)
termination_by 5 - count

/-- WaitForRelaysConnectedTask body from the start: count = 0, no
polls yet. -/
def waitForRelaysBody (probe : Nat → Bool) : Bool × Nat × List Nat :=
  waitForRelaysLoop probe 0 0 []

/-! ## ProviderRepository and the Task constructor -/

/-- ProviderRepository.register: Map.set — the newest binding for a
name wins on lookup.  Provider instances are abstracted by numbers. -/
def registerProvider (reg : List (String × Nat)) (name : String) (p : Nat) :
    List (String × Nat) := (name, p) :: reg

/-- ProviderRepository.get. -/
def getProvider (reg : List (String × Nat)) (name : String) : Option Nat :=
  (reg.find? (fun b => b.1 == name)).map (fun b => b.2)

/-- Resolution of the declared provider names, in order; the first
unregistered name throws. -/
def resolveNames (reg : List (String × Nat)) : List String → Except String (List Nat)
  | [] => .ok []
  | n :: rest =>
    match getProvider reg n with
    | none => .error ("Provider " ++ n ++ " not found")
    | some p => (resolveNames reg rest).map (fun ps => p :: ps)

/-- The provider-resolution prefix of the Task constructor: resolve
'DatabaseService' first — throwing 'DatabaseService not found' when it
is unregistered — and only then resolve each declared provider name. -/
def resolveTaskProviders (reg : List (String × Nat)) (providerNames : List String) :
    Except String (Nat × List Nat) :=
  match getProvider reg "DatabaseService" with
  | none => .error "DatabaseService not found"
  | some db => (resolveNames reg providerNames).map (fun ps => (db, ps))

/-! ## Cooperative concurrency machine for run()

Model of several concurrent run() calls for one fixed key (calls for
other keys touch disjoint cache rows and locksMap entries).  Execution
is cooperative and single-threaded, as in the host runtime: the code a
caller runs between two await points is one atomic step, steps of
different callers interleave in an order chosen by a schedule, and a
storage access takes effect at its step.  The task body is an
execution that the schedule settles — successfully or not — at an
arbitrary later point.

Caller steps mirror run():
  start      — resume after getCache: on a live hit finish with
               JSON.parse of it; else if locksMap holds the key become
               a waiter of that execution; else start the body, record
               it in locksMap, and own it;
  owner      — resume after the body settles: on success write
               JSON.stringify of the data to the cache (setCache, its
               own await); on failure the finally clears the lock and
               the error is re-thrown;
  ownerWrote — after the cache write: the finally clears the lock and
               the data is returned;
  waiter     — resume once the awaited execution settles, with its
               result (or its propagated failure). -/

inductive ExecStatus where
  | running
  | ok (v : Json)
  | fail

inductive CallerPc where
  | start
  | owner (e : Nat)
  | ownerWrote (e : Nat) (v : Json)
  | waiter (e : Nat)
  | done (r : Option Json)

/-- The machine state for one key: its cache row (value and expires_at
in unix seconds), its locksMap entry, the body executions spawned so
far, the callers, and the count of body starts.  The clock and the
task's expiry (as setCache stores it, in seconds) are fixed scenario
parameters. -/
structure RunMachine where
  cache : Option (String × Option Int)
  lock : Option Nat
  execs : List ExecStatus
  callers : List CallerPc
  starts : Nat
  now : Int
  expirySec : Option Int

/-- The cache check of run(): a row exists, passes the liveness
filter, and is not the empty string (`record?.value || null`). -/
def cacheLive (m : RunMachine) : Bool :=
  match m.cache with
  | none => false
  | some (v, exp) => !(v == "") && liveAt exp m.now

/-- One atomic step of caller i (a no-op when the caller is not
enabled, e.g. still awaiting a running body). -/
def stepCaller (m : RunMachine) (i : Nat) : RunMachine :=
  match m.callers[i]? with
  | none => m
  | some pc =>
    match pc with
    | .start =>
      if cacheLive m then
        let r := match m.cache with
                 | some (v, _) => parseJson v
                 | none => none
        { m with callers := m.callers.set i (.done r) }
      else
        match m.lock with
        | some e => { m with callers := m.callers.set i (.waiter e) }
        | none =>
          { m with execs := m.execs ++ [.running], lock := some m.execs.length,
                   callers := m.callers.set i (.owner m.execs.length),
                   starts := m.starts + 1 }
    | .owner e =>
      match m.execs[e]? with
      | some (.ok v) =>
        { m with cache := some (stringify v, m.expirySec),
                 callers := m.callers.set i (.ownerWrote e v) }
      | some .fail =>
        { m with lock := none, callers := m.callers.set i (.done none) }
      | _ => m
    | .ownerWrote e v =>
      { m with lock := none, callers := m.callers.set i (.done (some v)) }
    | .waiter e =>
      match m.execs[e]? with
      | some (.ok v) => { m with callers := m.callers.set i (.done (some v)) }
      | some .fail => { m with callers := m.callers.set i (.done none) }
      | _ => m
    | .done _ => m

/-- Scheduler events: a caller step, or the settling of a body. -/
inductive RunEv where
  | caller (i : Nat)
  | settleOk (e : Nat) (v : Json)
  | settleFail (e : Nat)

/-- Apply one event. -/
def stepEv (m : RunMachine) : RunEv → RunMachine
  | .caller i => stepCaller m i
  | .settleOk e v =>
    match m.execs[e]? with
    | some .running => { m with execs := m.execs.set e (.ok v) }
    | _ => m
  | .settleFail e =>
    match m.execs[e]? with
    | some .running => { m with execs := m.execs.set e .fail }
    | _ => m

/-- Run a whole schedule. -/
def runSched (m : RunMachine) (evs : List RunEv) : RunMachine :=
  evs.foldl stepEv m

/-- n concurrent callers of the same key, no cache row for the key
yet, nothing in flight. -/
def initMachine (n : Nat) (now : Int) (expirySec : Option Int) : RunMachine :=
  { cache := none, lock := none, execs := [], callers := List.replicate n .start,
    starts := 0, now := now, expirySec := expirySec }

/-- A program counter that is responsible for a body execution
(between starting the body and clearing the lock in the finally). -/
def ownerishPc : Option CallerPc → Prop
  | some (CallerPc.owner _) => True
  | some (CallerPc.ownerWrote _ _) => True
  | _ => False

/-- Caller j is currently responsible for a body execution. -/
def ownerAt (m : RunMachine) (j : Nat) : Prop := ownerishPc m.callers[j]?

/-- Safety invariant of the machine: a running body holds the lock; an
owner's (and a writer's) lock entry is its own execution; the cache
only ever holds JSON.stringify of a successfully settled body's data;
a finished caller's result is a settled body's result (decoded from
the cache on a hit) or a propagated body failure. -/
structure RunInv (m : RunMachine) : Prop where
  run_lock : ∀ e : Nat, m.execs[e]? = some ExecStatus.running → m.lock = some e
  owner_lock : ∀ i e : Nat, m.callers[i]? = some (CallerPc.owner e) → m.lock = some e
  wrote_state : ∀ (i e : Nat) (v : Json), m.callers[i]? = some (CallerPc.ownerWrote e v) →
    m.lock = some e ∧ m.execs[e]? = some (ExecStatus.ok v)
  cache_from : ∀ (s : String) (exp : Option Int), m.cache = some (s, exp) →
    ∃ (e : Nat) (v : Json), m.execs[e]? = some (ExecStatus.ok v) ∧ s = stringify v
  done_from : ∀ (i : Nat) (r : Option Json), m.callers[i]? = some (CallerPc.done r) →
    (∃ (e : Nat) (v : Json), m.execs[e]? = some (ExecStatus.ok v) ∧ r = some v) ∨
    (∃ e : Nat, m.execs[e]? = some ExecStatus.fail ∧ r = none)
  owner_excl : ∀ j1 j2 : Nat, ownerAt m j1 → ownerAt m j2 → j1 = j2

theorem initMachine_callers_start (n : Nat) (now : Int) (expirySec : Option Int) (j : Nat) :
    (initMachine n now expirySec).callers[j]? = some CallerPc.start ∨
      (initMachine n now expirySec).callers[j]? = none := by
  rcases Nat.lt_or_ge j n with hj | hj
  · rw [show (initMachine n now expirySec).callers = List.replicate n CallerPc.start from rfl,
      List.getElem?_replicate]
    simp [hj]
  · rw [show (initMachine n now expirySec).callers = List.replicate n CallerPc.start from rfl,
      List.getElem?_replicate]
    simp [Nat.not_lt.mpr hj]

theorem runInv_init (n : Nat) (now : Int) (expirySec : Option Int) :
    RunInv (initMachine n now expirySec) := by
  have hcal := initMachine_callers_start n now expirySec
  refine ⟨?_, ?_, ?_, ?_, ?_, ?_⟩
  · intro e h; simp [initMachine] at h
  · intro i e h
    rcases hcal i with h2 | h2 <;> rw [h2] at h <;> cases h
  · intro i e v h
    rcases hcal i with h2 | h2 <;> rw [h2] at h <;> cases h
  · intro s exp h; simp [initMachine] at h
  · intro i r h
    rcases hcal i with h2 | h2 <;> rw [h2] at h <;> cases h
  · intro j1 j2 h1 h2
    unfold ownerAt at h1
    rcases hcal j1 with h3 | h3 <;> rw [h3] at h1 <;> cases h1

theorem runInv_settleOk (m : RunMachine) (e0 : Nat) (v0 : Json) (hI : RunInv m) :
    RunInv (stepEv m (.settleOk e0 v0)) := by
  unfold stepEv
  cases he : m.execs[e0]? with
  | none => simpa [he] using hI
  | some s =>
    cases s with
    | running =>
      simp only [he]
      have he0lt : e0 < m.execs.length := (List.getElem?_eq_some.mp he).1
      refine ⟨?_, ?_, ?_, ?_, ?_, ?_⟩
      · intro e h
        by_cases hee : e = e0
        · subst hee
          rw [List.getElem?_set_self he0lt] at h
          cases h
        · rw [List.getElem?_set_ne (fun hh => hee hh.symm)] at h
          exact hI.run_lock e h
      · intro i e h; exact hI.owner_lock i e h
      · intro i e v h
        obtain ⟨h1, h2⟩ := hI.wrote_state i e v h
        refine ⟨h1, ?_⟩
        by_cases hee : e = e0
        · subst hee; rw [he] at h2; cases h2
        · rw [List.getElem?_set_ne (fun hh => hee hh.symm)]
          exact h2
      · intro s exp h
        obtain ⟨e, v, h1, h2⟩ := hI.cache_from s exp h
        by_cases hee : e = e0
        · subst hee; rw [he] at h1; cases h1
        · exact ⟨e, v, by rw [List.getElem?_set_ne (fun hh => hee hh.symm)]; exact h1, h2⟩
      · intro i r h
        rcases hI.done_from i r h with ⟨e, v, h1, h2⟩ | ⟨e, h1, h2⟩
        · by_cases hee : e = e0
          · subst hee; rw [he] at h1; cases h1
          · exact Or.inl ⟨e, v, by rw [List.getElem?_set_ne (fun hh => hee hh.symm)]; exact h1,
              h2⟩
        · by_cases hee : e = e0
          · subst hee; rw [he] at h1; cases h1
          · exact Or.inr ⟨e, by rw [List.getElem?_set_ne (fun hh => hee hh.symm)]; exact h1, h2⟩
      · exact hI.owner_excl
    | ok v => simpa [he] using hI
    | fail => simpa [he] using hI

theorem runInv_settleFail (m : RunMachine) (e0 : Nat) (hI : RunInv m) :
    RunInv (stepEv m (.settleFail e0)) := by
  unfold stepEv
  cases he : m.execs[e0]? with
  | none => simpa [he] using hI
  | some s =>
    cases s with
    | running =>
      simp only [he]
      have he0lt : e0 < m.execs.length := (List.getElem?_eq_some.mp he).1
      refine ⟨?_, ?_, ?_, ?_, ?_, ?_⟩
      · intro e h
        by_cases hee : e = e0
        · subst hee
          rw [List.getElem?_set_self he0lt] at h
          cases h
        · rw [List.getElem?_set_ne (fun hh => hee hh.symm)] at h
          exact hI.run_lock e h
      · intro i e h; exact hI.owner_lock i e h
      · intro i e v h
        obtain ⟨h1, h2⟩ := hI.wrote_state i e v h
        refine ⟨h1, ?_⟩
        by_cases hee : e = e0
        · subst hee; rw [he] at h2; cases h2
        · rw [List.getElem?_set_ne (fun hh => hee hh.symm)]
          exact h2
      · intro s exp h
        obtain ⟨e, v, h1, h2⟩ := hI.cache_from s exp h
        by_cases hee : e = e0
        · subst hee; rw [he] at h1; cases h1
        · exact ⟨e, v, by rw [List.getElem?_set_ne (fun hh => hee hh.symm)]; exact h1, h2⟩
      · intro i r h
        rcases hI.done_from i r h with ⟨e, v, h1, h2⟩ | ⟨e, h1, h2⟩
        · by_cases hee : e = e0
          · subst hee; rw [he] at h1; cases h1
          · exact Or.inl ⟨e, v, by rw [List.getElem?_set_ne (fun hh => hee hh.symm)]; exact h1,
              h2⟩
        · by_cases hee : e = e0
          · subst hee; rw [he] at h1; cases h1
          · exact Or.inr ⟨e, by rw [List.getElem?_set_ne (fun hh => hee hh.symm)]; exact h1, h2⟩
      · exact hI.owner_excl
    | ok v => simpa [he] using hI
    | fail => simpa [he] using hI

theorem callers_set_cases {α : Type} {l : List α} {i j : Nat} {pc q : α}
    (hset : (l.set i pc)[j]? = some q) :
    (j = i ∧ pc = q ∧ i < l.length) ∨ (j ≠ i ∧ l[j]? = some q) := by
  by_cases hji : j = i
  · subst hji
    by_cases hlt : j < l.length
    · rw [List.getElem?_set_self hlt] at hset
      exact Or.inl ⟨rfl, (Option.some.injEq _ _).mp hset, hlt⟩
    · have hnone : (l.set j pc)[j]? = none :=
        List.getElem?_eq_none (by rw [List.length_set]; omega)
      rw [hnone] at hset
      cases hset
  · refine Or.inr ⟨hji, ?_⟩
    rw [List.getElem?_set_ne (fun hh => hji hh.symm)] at hset
    exact hset

/-! Characterizations of the caller step, one per source transition. -/

theorem stepCaller_hit (m : RunMachine) (i : Nat)
    (hm : m.callers[i]? = some CallerPc.start) (hc : cacheLive m = true)
    (s : String) (exp : Option Int) (hcache : m.cache = some (s, exp)) :
    stepCaller m i = { m with callers := m.callers.set i (.done (parseJson s)) } := by
  unfold stepCaller
  rw [hm]
  simp [hc, hcache]

theorem stepCaller_wait (m : RunMachine) (i : Nat)
    (hm : m.callers[i]? = some CallerPc.start) (hc : cacheLive m = false)
    (e : Nat) (hl : m.lock = some e) :
    stepCaller m i = { m with callers := m.callers.set i (.waiter e) } := by
  unfold stepCaller
  rw [hm]
  simp [hc, hl]

theorem stepCaller_go (m : RunMachine) (i : Nat)
    (hm : m.callers[i]? = some CallerPc.start) (hc : cacheLive m = false)
    (hl : m.lock = none) :
    stepCaller m i =
      { m with execs := m.execs ++ [.running], lock := some m.execs.length,
               callers := m.callers.set i (.owner m.execs.length),
               starts := m.starts + 1 } := by
  unfold stepCaller
  rw [hm]
  simp [hc, hl]

theorem stepCaller_owner_ok (m : RunMachine) (i e : Nat) (v : Json)
    (hm : m.callers[i]? = some (CallerPc.owner e))
    (he : m.execs[e]? = some (ExecStatus.ok v)) :
    stepCaller m i =
      { m with cache := some (stringify v, m.expirySec),
               callers := m.callers.set i (.ownerWrote e v) } := by
  unfold stepCaller
  rw [hm]
  simp [he]

theorem stepCaller_owner_fail (m : RunMachine) (i e : Nat)
    (hm : m.callers[i]? = some (CallerPc.owner e))
    (he : m.execs[e]? = some ExecStatus.fail) :
    stepCaller m i = { m with lock := none, callers := m.callers.set i (.done none) } := by
  unfold stepCaller
  rw [hm]
  simp [he]

theorem stepCaller_ownerWrote (m : RunMachine) (i e : Nat) (v : Json)
    (hm : m.callers[i]? = some (CallerPc.ownerWrote e v)) :
    stepCaller m i = { m with lock := none, callers := m.callers.set i (.done (some v)) } := by
  unfold stepCaller
  rw [hm]

theorem stepCaller_waiter_ok (m : RunMachine) (i e : Nat) (v : Json)
    (hm : m.callers[i]? = some (CallerPc.waiter e))
    (he : m.execs[e]? = some (ExecStatus.ok v)) :
    stepCaller m i = { m with callers := m.callers.set i (.done (some v)) } := by
  unfold stepCaller
  rw [hm]
  simp [he]

theorem stepCaller_waiter_fail (m : RunMachine) (i e : Nat)
    (hm : m.callers[i]? = some (CallerPc.waiter e))
    (he : m.execs[e]? = some ExecStatus.fail) :
    stepCaller m i = { m with callers := m.callers.set i (.done none) } := by
  unfold stepCaller
  rw [hm]
  simp [he]

theorem ownerish_set_cases {l : List CallerPc} {i j : Nat} {pc : CallerPc}
    (h : ownerishPc ((l.set i pc)[j]?)) :
    (j = i ∧ ownerishPc (some pc)) ∨ (j ≠ i ∧ ownerishPc l[j]?) := by
  by_cases hji : j = i
  · subst hji
    by_cases hlt : j < l.length
    · rw [List.getElem?_set_self hlt] at h
      exact Or.inl ⟨rfl, h⟩
    · rw [List.getElem?_eq_none (by rw [List.length_set]; omega)] at h
      exact h.elim
  · right
    rw [List.getElem?_set_ne (fun hh => hji hh.symm)] at h
    exact ⟨hji, h⟩

/-- While locksMap has no entry for the key, no caller is mid-body. -/
theorem not_ownerAt_of_lock_none {m : RunMachine} (hI : RunInv m) (hl : m.lock = none)
    (j : Nat) : ¬ ownerAt m j := by
  intro hj
  unfold ownerAt at hj
  cases hcj : m.callers[j]? with
  | none => rw [hcj] at hj; exact hj.elim
  | some pc2 =>
    cases pc2 with
    | owner e =>
      have := hI.owner_lock j e hcj
      rw [hl] at this
      cases this
    | ownerWrote e v =>
      have := (hI.wrote_state j e v hcj).1
      rw [hl] at this
      cases this
    | start => rw [hcj] at hj; exact hj.elim
    | waiter e => rw [hcj] at hj; exact hj.elim
    | done r => rw [hcj] at hj; exact hj.elim

theorem runInv_stepCaller (m : RunMachine) (i : Nat) (hI : RunInv m) :
    RunInv (stepCaller m i) := by
  cases hm : m.callers[i]? with
  | none =>
    have hstep : stepCaller m i = m := by unfold stepCaller; rw [hm]
    rw [hstep]; exact hI
  | some pc =>
    cases pc with
    | start =>
      by_cases hc : cacheLive m
      · cases hcache : m.cache with
        | none => simp [cacheLive, hcache] at hc
        | some p =>
          obtain ⟨s, exp⟩ := p
          rw [stepCaller_hit m i hm hc s exp hcache]
          obtain ⟨e0, v0, he0, hs⟩ := hI.cache_from s exp hcache
          refine ⟨hI.run_lock, ?_, ?_, hI.cache_from, ?_, ?_⟩
          · intro j e h
            rcases callers_set_cases h with ⟨-, hpc, -⟩ | ⟨-, hj⟩
            · cases hpc
            · exact hI.owner_lock j e hj
          · intro j e v h
            rcases callers_set_cases h with ⟨-, hpc, -⟩ | ⟨-, hj⟩
            · cases hpc
            · exact hI.wrote_state j e v hj
          · intro j r h
            rcases callers_set_cases h with ⟨-, hpc, -⟩ | ⟨-, hj⟩
            · injection hpc with hr
              exact Or.inl ⟨e0, v0, he0, by rw [← hr, hs, parseJson_stringify]⟩
            · exact hI.done_from j r hj
          · intro j1 j2 h1 h2
            rcases ownerish_set_cases h1 with ⟨-, hpc1⟩ | ⟨-, h1p⟩
            · exact hpc1.elim
            rcases ownerish_set_cases h2 with ⟨-, hpc2⟩ | ⟨-, h2p⟩
            · exact hpc2.elim
            exact hI.owner_excl j1 j2 h1p h2p
      · rw [Bool.not_eq_true] at hc
        cases hl : m.lock with
        | some e0 =>
          rw [stepCaller_wait m i hm hc e0 hl]
          refine ⟨hI.run_lock, ?_, ?_, hI.cache_from, ?_, ?_⟩
          · intro j e h
            rcases callers_set_cases h with ⟨-, hpc, -⟩ | ⟨-, hj⟩
            · cases hpc
            · exact hI.owner_lock j e hj
          · intro j e v h
            rcases callers_set_cases h with ⟨-, hpc, -⟩ | ⟨-, hj⟩
            · cases hpc
            · exact hI.wrote_state j e v hj
          · intro j r h
            rcases callers_set_cases h with ⟨-, hpc, -⟩ | ⟨-, hj⟩
            · cases hpc
            · exact hI.done_from j r hj
          · intro j1 j2 h1 h2
            rcases ownerish_set_cases h1 with ⟨-, hpc1⟩ | ⟨-, h1p⟩
            · exact hpc1.elim
            rcases ownerish_set_cases h2 with ⟨-, hpc2⟩ | ⟨-, h2p⟩
            · exact hpc2.elim
            exact hI.owner_excl j1 j2 h1p h2p
        | none =>
          rw [stepCaller_go m i hm hc hl]
          have hnorun : ∀ e : Nat, ¬ m.execs[e]? = some ExecStatus.running := by
            intro e h
            have := hI.run_lock e h
            rw [hl] at this
            cases this
          refine ⟨?_, ?_, ?_, ?_, ?_, ?_⟩
          · intro e h
            have hbound := (List.getElem?_eq_some.mp h).1
            rw [List.length_append, List.length_singleton] at hbound
            by_cases hee : e = m.execs.length
            · rw [hee]
            · have helt : e < m.execs.length := by omega
              rw [List.getElem?_append, if_pos helt] at h
              exact absurd h (hnorun e)
          · intro j e h
            rcases callers_set_cases h with ⟨-, hpc, -⟩ | ⟨-, hj⟩
            · injection hpc with he
              rw [he]
            · have := hI.owner_lock j e hj
              rw [hl] at this
              cases this
          · intro j e v h
            rcases callers_set_cases h with ⟨-, hpc, -⟩ | ⟨-, hj⟩
            · cases hpc
            · have := (hI.wrote_state j e v hj).1
              rw [hl] at this
              cases this
          · intro s exp h
            obtain ⟨e, v, hev, hsv⟩ := hI.cache_from s exp h
            have helt : e < m.execs.length := (List.getElem?_eq_some.mp hev).1
            exact ⟨e, v, by rw [List.getElem?_append, if_pos helt]; exact hev, hsv⟩
          · intro j r h
            rcases callers_set_cases h with ⟨-, hpc, -⟩ | ⟨-, hj⟩
            · cases hpc
            · rcases hI.done_from j r hj with ⟨e, v, hev, hr⟩ | ⟨e, hev, hr⟩
              · have helt : e < m.execs.length := (List.getElem?_eq_some.mp hev).1
                exact Or.inl ⟨e, v, by rw [List.getElem?_append, if_pos helt]; exact hev, hr⟩
              · have helt : e < m.execs.length := (List.getElem?_eq_some.mp hev).1
                exact Or.inr ⟨e, by rw [List.getElem?_append, if_pos helt]; exact hev, hr⟩
          · intro j1 j2 h1 h2
            rcases ownerish_set_cases h1 with ⟨hj1, -⟩ | ⟨-, h1p⟩
            · rcases ownerish_set_cases h2 with ⟨hj2, -⟩ | ⟨-, h2p⟩
              · rw [hj1, hj2]
              · exact absurd h2p (not_ownerAt_of_lock_none hI hl j2)
            · exact absurd h1p (not_ownerAt_of_lock_none hI hl j1)
    | owner e =>
      cases he : m.execs[e]? with
      | none =>
        have hstep : stepCaller m i = m := by unfold stepCaller; rw [hm]; simp [he]
        rw [hstep]; exact hI
      | some s =>
        cases s with
        | running =>
          have hstep : stepCaller m i = m := by unfold stepCaller; rw [hm]; simp [he]
          rw [hstep]; exact hI
        | ok v =>
          rw [stepCaller_owner_ok m i e v hm he]
          have hoi : ownerAt m i := by unfold ownerAt; rw [hm]; exact trivial
          refine ⟨hI.run_lock, ?_, ?_, ?_, ?_, ?_⟩
          · intro j e2 h
            rcases callers_set_cases h with ⟨-, hpc, -⟩ | ⟨hne, hj⟩
            · cases hpc
            · exact hI.owner_lock j e2 hj
          · intro j e2 v2 h
            rcases callers_set_cases h with ⟨-, hpc, -⟩ | ⟨hne, hj⟩
            · injection hpc with he2 hv2
              rw [← he2, ← hv2]
              exact ⟨hI.owner_lock i e hm, he⟩
            · exact hI.wrote_state j e2 v2 hj
          · intro s2 exp2 h
            injection h with hp
            injection hp with hs2 hexp2
            exact ⟨e, v, he, hs2.symm⟩
          · intro j r h
            rcases callers_set_cases h with ⟨-, hpc, -⟩ | ⟨-, hj⟩
            · cases hpc
            · exact hI.done_from j r hj
          · intro j1 j2 h1 h2
            rcases ownerish_set_cases h1 with ⟨hj1, -⟩ | ⟨-, h1p⟩
            · rcases ownerish_set_cases h2 with ⟨hj2, -⟩ | ⟨-, h2p⟩
              · rw [hj1, hj2]
              · rw [hj1]
                exact (hI.owner_excl j2 i h2p hoi).symm
            · rcases ownerish_set_cases h2 with ⟨hj2, -⟩ | ⟨-, h2p⟩
              · rw [hj2]
                exact hI.owner_excl j1 i h1p hoi
              · exact hI.owner_excl j1 j2 h1p h2p
        | fail =>
          rw [stepCaller_owner_fail m i e hm he]
          have hoi : ownerAt m i := by unfold ownerAt; rw [hm]; exact trivial
          refine ⟨?_, ?_, ?_, hI.cache_from, ?_, ?_⟩
          · intro e2 h
            have h1 := hI.run_lock e2 h
            have h2 := hI.owner_lock i e hm
            rw [h2] at h1
            injection h1 with hee
            rw [← hee] at h
            rw [he] at h
            simp at h
          · intro j e2 h
            rcases callers_set_cases h with ⟨-, hpc, -⟩ | ⟨hne, hj⟩
            · cases hpc
            · have hoj : ownerAt m j := by unfold ownerAt; rw [hj]; exact trivial
              exact absurd (hI.owner_excl j i hoj hoi) hne
          · intro j e2 v2 h
            rcases callers_set_cases h with ⟨-, hpc, -⟩ | ⟨hne, hj⟩
            · cases hpc
            · have hoj : ownerAt m j := by unfold ownerAt; rw [hj]; exact trivial
              exact absurd (hI.owner_excl j i hoj hoi) hne
          · intro j r h
            rcases callers_set_cases h with ⟨-, hpc, -⟩ | ⟨-, hj⟩
            · injection hpc with hr
              exact Or.inr ⟨e, he, hr.symm⟩
            · exact hI.done_from j r hj
          · intro j1 j2 h1 h2
            rcases ownerish_set_cases h1 with ⟨-, hpc1⟩ | ⟨hne1, h1p⟩
            · exact hpc1.elim
            · exact absurd (hI.owner_excl j1 i h1p hoi) hne1
    | ownerWrote e v =>
      rw [stepCaller_ownerWrote m i e v hm]
      have hoi : ownerAt m i := by unfold ownerAt; rw [hm]; exact trivial
      obtain ⟨hlock, hexec⟩ := hI.wrote_state i e v hm
      refine ⟨?_, ?_, ?_, hI.cache_from, ?_, ?_⟩
      · intro e2 h
        have h1 := hI.run_lock e2 h
        rw [hlock] at h1
        injection h1 with hee
        rw [← hee] at h
        rw [hexec] at h
        simp at h
      · intro j e2 h
        rcases callers_set_cases h with ⟨-, hpc, -⟩ | ⟨hne, hj⟩
        · cases hpc
        · have hoj : ownerAt m j := by unfold ownerAt; rw [hj]; exact trivial
          exact absurd (hI.owner_excl j i hoj hoi) hne
      · intro j e2 v2 h
        rcases callers_set_cases h with ⟨-, hpc, -⟩ | ⟨hne, hj⟩
        · cases hpc
        · have hoj : ownerAt m j := by unfold ownerAt; rw [hj]; exact trivial
          exact absurd (hI.owner_excl j i hoj hoi) hne
      · intro j r h
        rcases callers_set_cases h with ⟨-, hpc, -⟩ | ⟨-, hj⟩
        · injection hpc with hr
          exact Or.inl ⟨e, v, hexec, hr.symm⟩
        · exact hI.done_from j r hj
      · intro j1 j2 h1 h2
        rcases ownerish_set_cases h1 with ⟨-, hpc1⟩ | ⟨hne1, h1p⟩
        · exact hpc1.elim
        · exact absurd (hI.owner_excl j1 i h1p hoi) hne1
    | waiter e =>
      cases he : m.execs[e]? with
      | none =>
        have hstep : stepCaller m i = m := by unfold stepCaller; rw [hm]; simp [he]
        rw [hstep]; exact hI
      | some s =>
        cases s with
        | running =>
          have hstep : stepCaller m i = m := by unfold stepCaller; rw [hm]; simp [he]
          rw [hstep]; exact hI
        | ok v =>
          rw [stepCaller_waiter_ok m i e v hm he]
          refine ⟨hI.run_lock, ?_, ?_, hI.cache_from, ?_, ?_⟩
          · intro j e2 h
            rcases callers_set_cases h with ⟨-, hpc, -⟩ | ⟨-, hj⟩
            · cases hpc
            · exact hI.owner_lock j e2 hj
          · intro j e2 v2 h
            rcases callers_set_cases h with ⟨-, hpc, -⟩ | ⟨-, hj⟩
            · cases hpc
            · exact hI.wrote_state j e2 v2 hj
          · intro j r h
            rcases callers_set_cases h with ⟨-, hpc, -⟩ | ⟨-, hj⟩
            · injection hpc with hr
              exact Or.inl ⟨e, v, he, hr.symm⟩
            · exact hI.done_from j r hj
          · intro j1 j2 h1 h2
            rcases ownerish_set_cases h1 with ⟨-, hpc1⟩ | ⟨-, h1p⟩
            · exact hpc1.elim
            rcases ownerish_set_cases h2 with ⟨-, hpc2⟩ | ⟨-, h2p⟩
            · exact hpc2.elim
            exact hI.owner_excl j1 j2 h1p h2p
        | fail =>
          rw [stepCaller_waiter_fail m i e hm he]
          refine ⟨hI.run_lock, ?_, ?_, hI.cache_from, ?_, ?_⟩
          · intro j e2 h
            rcases callers_set_cases h with ⟨-, hpc, -⟩ | ⟨-, hj⟩
            · cases hpc
            · exact hI.owner_lock j e2 hj
          · intro j e2 v2 h
            rcases callers_set_cases h with ⟨-, hpc, -⟩ | ⟨-, hj⟩
            · cases hpc
            · exact hI.wrote_state j e2 v2 hj
          · intro j r h
            rcases callers_set_cases h with ⟨-, hpc, -⟩ | ⟨-, hj⟩
            · injection hpc with hr
              exact Or.inr ⟨e, he, hr.symm⟩
            · exact hI.done_from j r hj
          · intro j1 j2 h1 h2
            rcases ownerish_set_cases h1 with ⟨-, hpc1⟩ | ⟨-, h1p⟩
            · exact hpc1.elim
            rcases ownerish_set_cases h2 with ⟨-, hpc2⟩ | ⟨-, h2p⟩
            · exact hpc2.elim
            exact hI.owner_excl j1 j2 h1p h2p
    | done r =>
      have hstep : stepCaller m i = m := by unfold stepCaller; rw [hm]
      rw [hstep]; exact hI

/-- The invariant is preserved by every event. -/
theorem runInv_stepEv (m : RunMachine) (ev : RunEv) (hI : RunInv m) :
    RunInv (stepEv m ev) := by
  cases ev with
  | caller i => exact runInv_stepCaller m i hI
  | settleOk e v => exact runInv_settleOk m e v hI
  | settleFail e => exact runInv_settleFail m e hI

/-- The invariant holds in every reachable state. -/
theorem runInv_runSched (m : RunMachine) (evs : List RunEv) (hI : RunInv m) :
    RunInv (runSched m evs) := by
  induction evs generalizing m with
  | nil => exact hI
  | cons ev rest ih => exact ih (stepEv m ev) (runInv_stepEv m ev hI)

/-- Mutual exclusion: two running body executions are the same one. -/
theorem runMutex {m : RunMachine} (hI : RunInv m) :
    ∀ e1 e2 : Nat, m.execs[e1]? = some ExecStatus.running →
      m.execs[e2]? = some ExecStatus.running → e1 = e2 := by
  intro e1 e2 h1 h2
  have h3 := hI.run_lock e1 h1
  have h4 := hI.run_lock e2 h2
  rw [h3] at h4
  injection h4

/-- A body execution starts at a step only when the cache check missed
(no row, expired row, or empty value), locksMap had no entry for the
key, and — by the invariant — every earlier execution has settled. -/
theorem start_conditions {m : RunMachine} (hI : RunInv m) (i : Nat)
    (h : (stepCaller m i).starts = m.starts + 1) :
    cacheLive m = false ∧ m.lock = none ∧
      ∀ e : Nat, m.execs[e]? ≠ some ExecStatus.running := by
  cases hm : m.callers[i]? with
  | none =>
    have hstep : stepCaller m i = m := by unfold stepCaller; rw [hm]
    rw [hstep] at h
    omega
  | some pc =>
    cases pc with
    | start =>
      by_cases hc : cacheLive m
      · cases hcache : m.cache with
        | none => simp [cacheLive, hcache] at hc
        | some p =>
          obtain ⟨s, exp⟩ := p
          rw [stepCaller_hit m i hm hc s exp hcache] at h
          simp at h
      · rw [Bool.not_eq_true] at hc
        cases hl : m.lock with
        | some e0 =>
          rw [stepCaller_wait m i hm hc e0 hl] at h
          simp at h
        | none =>
          refine ⟨hc, rfl, ?_⟩
          intro e he
          have h2 := hI.run_lock e he
          rw [hl] at h2
          cases h2
    | owner e =>
      cases he : m.execs[e]? with
      | none =>
        have hstep : stepCaller m i = m := by unfold stepCaller; rw [hm]; simp [he]
        rw [hstep] at h
        omega
      | some s =>
        cases s with
        | running =>
          have hstep : stepCaller m i = m := by unfold stepCaller; rw [hm]; simp [he]
          rw [hstep] at h
          omega
        | ok v =>
          rw [stepCaller_owner_ok m i e v hm he] at h
          simp at h
        | fail =>
          rw [stepCaller_owner_fail m i e hm he] at h
          simp at h
    | ownerWrote e v =>
      rw [stepCaller_ownerWrote m i e v hm] at h
      simp at h
    | waiter e =>
      cases he : m.execs[e]? with
      | none =>
        have hstep : stepCaller m i = m := by unfold stepCaller; rw [hm]; simp [he]
        rw [hstep] at h
        omega
      | some s =>
        cases s with
        | running =>
          have hstep : stepCaller m i = m := by unfold stepCaller; rw [hm]; simp [he]
          rw [hstep] at h
          omega
        | ok v =>
          rw [stepCaller_waiter_ok m i e v hm he] at h
          simp at h
        | fail =>
          rw [stepCaller_waiter_fail m i e hm he] at h
          simp at h
    | done r =>
      have hstep : stepCaller m i = m := by unfold stepCaller; rw [hm]
      rw [hstep] at h
      omega

/-- When exactly one body ran and it settled successfully, every
caller that finished — via the in-flight promise, the owner's own
return, or a cache hit — received that same data. -/
theorem single_exec_same_result {m : RunMachine} (hI : RunInv m) (v : Json)
    (hex : m.execs = [ExecStatus.ok v]) :
    ∀ (i : Nat) (r : Option Json), m.callers[i]? = some (CallerPc.done r) → r = some v := by
  intro i r h
  rcases hI.done_from i r h with ⟨e, v2, hev, hr⟩ | ⟨e, hev, hr⟩
  · rw [hex] at hev
    cases e with
    | zero =>
      rw [show ([ExecStatus.ok v])[0]? = some (ExecStatus.ok v) from rfl] at hev
      injection hev with hev2
      injection hev2 with hev3
      rw [hr, hev3]
    | succ k =>
      rw [show ([ExecStatus.ok v])[k + 1]? = none from rfl] at hev
      cases hev
  · rw [hex] at hev
    cases e with
    | zero =>
      rw [show ([ExecStatus.ok v])[0]? = some (ExecStatus.ok v) from rfl] at hev
      injection hev with hev2
      cases hev2
    | succ k =>
      rw [show ([ExecStatus.ok v])[k + 1]? = none from rfl] at hev
      cases hev

/-! ### Support lemmas for the cache and queue claims -/

theorem stringify_ne_empty (v : Json) : stringify v ≠ "" := by
  obtain ⟨c, cs, hc, -, -, -, -⟩ := emit_head v
  unfold stringify
  rw [hc]
  intro h
  have h2 := congrArg String.data h
  simp at h2

/-- A cache read after setCache on the same key returns exactly the
written value while the written expiry is unexpired. -/
theorem getCache_setCache (db : DbState) (key value : String) (exp : Option Int) (nowMs : Int)
    (hval : ¬ value = "")
    (hlive : liveAt (exp.map toUnixSeconds) (toUnixSeconds nowMs) = true) :
    getCache (setCache db key value exp) key nowMs = some value := by
  unfold getCache setCache
  simp only [List.find?_append]
  have hnone : List.find? (fun e => e.key == key && liveAt e.expires_at (toUnixSeconds nowMs))
      (db.cache.filter fun e => e.key != key) = none := by
    rw [List.find?_eq_none]
    intro e he
    have h2 := (List.mem_filter.mp he).2
    simp only [bne_iff_ne, ne_eq] at h2
    simp [h2]
  rw [hnone]
  simp [List.find?, hlive, hval]

/-- Whatever getCache returns is the value of a stored row for the key
that passes the liveness filter: an expired row is never served. -/
theorem getCache_live {db : DbState} {key : String} {nowMs : Int} {v : String}
    (h : getCache db key nowMs = some v) :
    ∃ en, en ∈ db.cache ∧ en.key = key ∧ en.value = v ∧
      liveAt en.expires_at (toUnixSeconds nowMs) = true := by
  unfold getCache at h
  cases hf : db.cache.find?
      (fun e => e.key == key && liveAt e.expires_at (toUnixSeconds nowMs)) with
  | none => simp only [hf] at h; cases h
  | some en =>
    simp only [hf] at h
    have hmem := List.mem_of_find?_eq_some hf
    have hpred := List.find?_some hf
    simp only [Bool.and_eq_true, beq_iff_eq] at hpred
    by_cases hv : en.value = ""
    · rw [if_pos hv] at h; cases h
    · rw [if_neg hv] at h
      injection h with hv2
      exact ⟨en, hmem, hpred.1, hv2, hpred.2⟩

/-- Whatever extractNextQueuedTask returns is a stored row passing the
liveness filter: an expired record is never dispatched. -/
theorem extractNext_live {db : DbState} {nowMs : Int} {r : QueuedTaskRecord}
    (h : extractNextQueuedTask db nowMs = some r) :
    r ∈ db.queue ∧ liveAt r.expires_at (toUnixSeconds nowMs) = true := by
  unfold extractNextQueuedTask at h
  rcases extractNext_pick_mem h with h2 | h2
  · cases h2
  · exact ⟨(List.mem_filter.mp h2).1, (List.mem_filter.mp h2).2⟩

theorem queueBefore_irrefl (a : QueuedTaskRecord) : queueBefore a a = false := by
  simp [queueBefore]

theorem queueBefore_trans {a b c : QueuedTaskRecord} (h1 : queueBefore a b = true)
    (h2 : queueBefore b c = true) : queueBefore a c = true := by
  unfold queueBefore at h1 h2 ⊢
  simp only [Bool.or_eq_true, Bool.and_eq_true, decide_eq_true_eq, beq_iff_eq] at h1 h2 ⊢
  omega

/-- The LIMIT 1 scan picks a row no other scanned row beats. -/
theorem pick_no_better : ∀ (l : List QueuedTaskRecord) (acc : Option QueuedTaskRecord)
    (r : QueuedTaskRecord), l.foldl pickBest acc = some r →
    (∀ q ∈ l, queueBefore q r = false) ∧
    (∀ b, acc = some b → (r = b ∨ queueBefore r b = true)) := by
  intro l
  induction l with
  | nil =>
    intro acc r h
    refine ⟨by simp, ?_⟩
    intro b hb
    rw [hb] at h
    injection h with h2
    exact Or.inl h2.symm
  | cons x xs ih =>
    intro acc r h
    rw [List.foldl_cons] at h
    have hnb : ∀ b', pickBest acc x = some b' → queueBefore x b' = false → queueBefore x r = false := by
      intro b' hb' hxb'
      rcases (ih (pickBest acc x) r h).2 b' hb' with hrb | hrb
      · rw [hrb]; exact hxb'
      · by_cases hxr : queueBefore x r
        · exact absurd (queueBefore_trans hxr hrb) (by rw [hxb']; simp)
        · rw [Bool.not_eq_true] at hxr; exact hxr
    have hxr : queueBefore x r = false := by
      cases hacc : acc with
      | none =>
        have hpb : pickBest none x = some x := rfl
        rw [hacc] at h
        rcases (ih (pickBest none x) r h).2 x hpb with hrb | hrb
        · rw [hrb]; exact queueBefore_irrefl x
        · by_cases hxr2 : queueBefore x r
          · exact absurd (queueBefore_trans hxr2 hrb) (by rw [queueBefore_irrefl]; simp)
          · rw [Bool.not_eq_true] at hxr2; exact hxr2
      | some b =>
        rw [hacc] at h
        by_cases hxb : queueBefore x b
        · have hpb : pickBest (some b) x = some x := by simp [pickBest, hxb]
          rcases (ih (pickBest (some b) x) r h).2 x hpb with hrb | hrb
          · rw [hrb]; exact queueBefore_irrefl x
          · by_cases hxr2 : queueBefore x r
            · exact absurd (queueBefore_trans hxr2 hrb) (by rw [queueBefore_irrefl]; simp)
            · rw [Bool.not_eq_true] at hxr2; exact hxr2
        · rw [Bool.not_eq_true] at hxb
          have hpb : pickBest (some b) x = some b := by simp [pickBest, hxb]
          exact hnb b (by rw [hacc]; exact hpb) hxb
    refine ⟨?_, ?_⟩
    · intro q hq
      rcases List.mem_cons.mp hq with hq2 | hq2
      · rw [hq2]; exact hxr
      · exact (ih (pickBest acc x) r h).1 q hq2
    · intro b0 hb0
      rw [hb0] at h
      by_cases hxb : queueBefore x b0
      · have hpb : pickBest (some b0) x = some x := by simp [pickBest, hxb]
        rcases (ih (pickBest (some b0) x) r h).2 x hpb with hrb | hrb
        · rw [hrb]; exact Or.inr hxb
        · exact Or.inr (queueBefore_trans hrb hxb)
      · rw [Bool.not_eq_true] at hxb
        have hpb : pickBest (some b0) x = some b0 := by simp [pickBest, hxb]
        exact (ih (pickBest (some b0) x) r h).2 b0 hpb

/-- No undeleted live row beats the extracted one: it has the highest
priority, ties broken by the oldest added_at. -/
theorem extractNext_optimal {db : DbState} {nowMs : Int} {r : QueuedTaskRecord}
    (h : extractNextQueuedTask db nowMs = some r) :
    ∀ q ∈ db.queue, liveAt q.expires_at (toUnixSeconds nowMs) = true →
      queueBefore q r = false := by
  unfold extractNextQueuedTask at h
  intro q hq hlive
  exact (pick_no_better _ none r h).1 q (List.mem_filter.mpr ⟨hq, hlive⟩)

/-! ## Claims -/

/-- Concrete task and engine state used by witnesses: no cached rows,
no in-flight keys, a task with expiry 'forever'. -/
def c1task : TaskModel := { name := "T", args := [], expiry := none }

/-- Fresh engine state: empty storage, empty locksMap. -/
def c1st : EngineState :=
  { db := { cache := [], queue := [], nextId := 1 }, locks := [] }

/-- C1: for every task and key k = typeName + ':' + fingerprint(arguments):
a run() call that finds a non-expired cache entry for k returns the
decoded cached value with no body execution and no state change (no
provider calls, no side effects) — first conjunct, for any state and
any body.  In particular, two sequential run() calls with identical
arguments — the first from a state with no cached entry for k and no
in-flight entry for k, the second while the entry the first call wrote
is unexpired — execute the body exactly once (counts 1 then 0) and
return identical decoded results (both calls return `.ok data`). -/
theorem claim_c1_memoized_run
    (t : TaskModel) (st : EngineState) (now1 now2 : Int) (data : Json)
    (body2 : Except String Json)
    (hlock : st.locks.contains (taskKey t) = false)
    (hmiss : getCache st.db (taskKey t) now1 = none)
    (hlive : liveAt (t.expiry.map toUnixSeconds) (toUnixSeconds now2) = true) :
    (∀ (st' : EngineState) (s : String) (body : Except String Json),
      getCache st'.db (taskKey t) now2 = some s →
      runSeq t body st' now2 = some (decodeCached s, st', 0)) ∧
    (∃ st1 : EngineState,
      runSeq t (.ok data) st now1 = some (.ok data, st1, 1) ∧
      runSeq t body2 st1 now2 = some (.ok data, st1, 0)) := by
  constructor
  · intro st' s body hhit
    simp only [runSeq]
    rw [hhit]
  · refine ⟨{ st with db := setCache st.db (taskKey t) (stringify data) t.expiry }, ?_, ?_⟩
    · unfold runSeq
      rw [hmiss]
      have hnm : taskKey t ∉ st.locks := by simpa using hlock
      simp [hnm]
    · unfold runSeq
      rw [show ({ st with db := setCache st.db (taskKey t) (stringify data) t.expiry }
          : EngineState).db = setCache st.db (taskKey t) (stringify data) t.expiry from rfl,
        getCache_setCache st.db (taskKey t) (stringify data) t.expiry now2
          (stringify_ne_empty data) hlive]
      simp [decodeCached, parseJson_stringify]

/-- Witness: the two-call scenario of C1 at a concrete task, state and
result. -/
theorem claim_c1_memoized_run_witness :
    ∃ st1 : EngineState,
      runSeq c1task (.ok Json.null) c1st 0 = some (.ok Json.null, st1, 1) ∧
      runSeq c1task (.ok Json.null) st1 0 = some (.ok Json.null, st1, 0) :=
  (claim_c1_memoized_run c1task c1st 0 0 Json.null (.ok Json.null) rfl rfl rfl).2

/-- C3: if the body throws during run(), the error propagates to the
caller, no cache entry is written and no in-flight entry remains (the
state after the call is exactly the state before), and an immediately
following run() with the same arguments re-invokes the body (execution
count 1 again, outcome whatever the new body run yields). -/
theorem claim_c3_failure_isolation
    (t : TaskModel) (st : EngineState) (now : Int) (e : String)
    (body2 : Except String Json)
    (hlock : st.locks.contains (taskKey t) = false)
    (hmiss : getCache st.db (taskKey t) now = none) :
    runSeq t (.error e) st now = some (.error e, st, 1) ∧
    (∃ st2 : EngineState, runSeq t body2 st now = some (body2, st2, 1)) := by
  have hnm : taskKey t ∉ st.locks := by simpa using hlock
  constructor
  · unfold runSeq
    rw [hmiss]
    simp [hnm]
  · cases body2 with
    | ok d =>
      refine ⟨{ st with db := setCache st.db (taskKey t) (stringify d) t.expiry }, ?_⟩
      simp only [runSeq]
      rw [hmiss]
      simp [hnm]
    | error e2 =>
      refine ⟨st, ?_⟩
      simp only [runSeq]
      rw [hmiss]
      simp [hnm]

/-- Witness: C3 at a concrete task and state. -/
theorem claim_c3_failure_isolation_witness :
    runSeq c1task (.error "boom") c1st 0 = some (.error "boom", c1st, 1) ∧
    (∃ st2 : EngineState,
      runSeq c1task (.ok Json.null) c1st 0 = some (.ok Json.null, st2, 1)) :=
  claim_c3_failure_isolation c1task c1st 0 "boom" (.ok Json.null) rfl rfl

/-- C4: anything the cache lookup used by run() returns is the value
of a stored row that passes the liveness filter (expires_at IS NULL OR
expires_at > now), and anything extract_next() returns is a stored
queue row passing the same filter; hence a row whose expires_at is a
past timestamp is never returned by either read, even before any
cleanup sweep — in particular the third conjunct: an expired record is
never the result of extract_next(). -/
theorem claim_c4_lazy_expiry (db : DbState) (key : String) (nowMs : Int) :
    (∀ v, getCache db key nowMs = some v →
      ∃ en, en ∈ db.cache ∧ en.key = key ∧ en.value = v ∧
        liveAt en.expires_at (toUnixSeconds nowMs) = true) ∧
    (∀ r, extractNextQueuedTask db nowMs = some r →
      r ∈ db.queue ∧ liveAt r.expires_at (toUnixSeconds nowMs) = true) ∧
    (∀ (r : QueuedTaskRecord) (t0 : Int), r.expires_at = some t0 →
      t0 ≤ toUnixSeconds nowMs → extractNextQueuedTask db nowMs ≠ some r) := by
  refine ⟨fun v h => getCache_live h, fun r h => extractNext_live h, ?_⟩
  intro r t0 hexp hpast hcontra
  have h2 := (extractNext_live hcontra).2
  rw [hexp] at h2
  simp only [liveAt, decide_eq_true_eq] at h2
  omega

/-- Expired and live rows side by side, for the C4 witness. -/
def c4db : DbState :=
  { cache := [{ key := "k", value := "old", expires_at := some 5 },
              { key := "k", value := "new", expires_at := none }],
    queue := [{ id := 1, task_name := "A", arguments := "[]", added_at := 0,
                expires_at := some 5, priority := 0 },
              { id := 2, task_name := "B", arguments := "[]", added_at := 0,
                expires_at := none, priority := 1 }],
    nextId := 3 }

/-- The live queue row of c4db. -/
def c4B : QueuedTaskRecord :=
  { id := 2, task_name := "B", arguments := "[]", added_at := 0,
    expires_at := none, priority := 1 }

/-- Witness: C4 at a state holding an expired cache row and an expired
queue row next to live ones (clock at second 10, both expired at
second 5): the reads skip the expired rows. -/
theorem claim_c4_lazy_expiry_witness :
    getCache c4db "k" 10000 = some "new" ∧
    (∃ en, en ∈ c4db.cache ∧ en.key = "k" ∧ en.value = "new" ∧
      liveAt en.expires_at (toUnixSeconds 10000) = true) ∧
    extractNextQueuedTask c4db 10000 = some c4B ∧
    (c4B ∈ c4db.queue ∧ liveAt c4B.expires_at (toUnixSeconds 10000) = true) :=
  ⟨by decide, (claim_c4_lazy_expiry c4db "k" 10000).1 "new" (by decide),
   by decide, (claim_c4_lazy_expiry c4db "k" 10000).2.1 c4B (by decide)⟩

/-- The A(priority 5), B(priority 1), C(priority 5) example records,
enqueued in that order (ids and added_at increasing). -/
def c5A : QueuedTaskRecord :=
  { id := 1, task_name := "A", arguments := "[]", added_at := 0,
    expires_at := none, priority := 5 }

/-- Second record of the C5 example. -/
def c5B : QueuedTaskRecord :=
  { id := 2, task_name := "B", arguments := "[]", added_at := 1,
    expires_at := none, priority := 1 }

/-- Third record of the C5 example. -/
def c5C : QueuedTaskRecord :=
  { id := 3, task_name := "C", arguments := "[]", added_at := 2,
    expires_at := none, priority := 5 }

/-- Queue holding the A, B, C example records. -/
def c5db : DbState := { cache := [], queue := [c5A, c5B, c5C], nextId := 4 }

/-- C5 counterexample: extract_next() does not delete — it is a pure
read of the queue state — so with A(5), B(1), C(5) enqueued in that
order, the first call returns A and a second successive call (nothing
deleted in between) returns A again, not C as the claim's example
asserts. -/
theorem claim_c5_counterexample :
    extractNextQueuedTask c5db 10000 = some c5A ∧
    ¬ extractNextQueuedTask c5db 10000 = some c5C := by
  constructor
  · decide
  · decide

/-- C5 (amended): extract_next() returns, without deleting it, a
non-expired queued record that no other non-expired record beats under
priority DESC, added_at ASC; and for records enqueued as A(priority 5),
B(priority 1), C(priority 5) in that order, successive rounds of
extract_next() each followed by delete() of the returned record yield
A, then C, then B, then null. -/
theorem claim_c5_queue_order :
    (∀ (db : DbState) (nowMs : Int) (r : QueuedTaskRecord),
      extractNextQueuedTask db nowMs = some r →
      r ∈ db.queue ∧ liveAt r.expires_at (toUnixSeconds nowMs) = true ∧
      ∀ q ∈ db.queue, liveAt q.expires_at (toUnixSeconds nowMs) = true →
        queueBefore q r = false) ∧
    (extractNextQueuedTask c5db 10000 = some c5A ∧
     extractNextQueuedTask (deleteQueuedTask c5db c5A.id) 10000 = some c5C ∧
     extractNextQueuedTask (deleteQueuedTask (deleteQueuedTask c5db c5A.id) c5C.id) 10000 =
       some c5B ∧
     extractNextQueuedTask
       (deleteQueuedTask (deleteQueuedTask (deleteQueuedTask c5db c5A.id) c5C.id) c5B.id)
       10000 = none) := by
  constructor
  · intro db nowMs r h
    exact ⟨(extractNext_live h).1, (extractNext_live h).2, extractNext_optimal h⟩
  · refine ⟨by decide, by decide, by decide, by decide⟩

/-- Witness: the general part of the amended C5 at the concrete A/B/C
queue. -/
theorem claim_c5_queue_order_witness :
    c5A ∈ c5db.queue ∧ liveAt c5A.expires_at (toUnixSeconds 10000) = true ∧
    ∀ q ∈ c5db.queue, liveAt q.expires_at (toUnixSeconds 10000) = true →
      queueBefore q c5A = false :=
  claim_c5_queue_order.1 c5db 10000 c5A (by decide)

/-- Failing record of the C6 example (higher priority, extracted
first). -/
def c6A : QueuedTaskRecord :=
  { id := 1, task_name := "A", arguments := "[]", added_at := 0,
    expires_at := none, priority := 5 }

/-- Healthy record of the C6 example. -/
def c6B : QueuedTaskRecord :=
  { id := 2, task_name := "B", arguments := "[]", added_at := 1,
    expires_at := none, priority := 1 }

/-- Queue holding both C6 records. -/
def c6db : DbState := { cache := [], queue := [c6A, c6B], nextId := 3 }

/-- Record execution of the C6 example: task A throws, everything else
succeeds. -/
def c6exec : QueuedTaskRecord → Except String Json :=
  fun r => if r.task_name = "A" then .error "boom" else .ok Json.null

/-- C6 counterexample: with A (which throws) ahead of healthy B in the
queue, the drain pass attempts only A (the run-log is [1]), deletes it,
and then the rethrown error propagates out of processQueue: the drainer
does NOT continue to B — B is never attempted and stays queued — while
the claim says the drainer continues extracting and executing
subsequent records until extract_next() returns null. -/
theorem claim_c6_counterexample :
    processQueue c6db c6exec 10000 =
      (.error "boom", { cache := [], queue := [c6B], nextId := 3 }, [1]) := by
  rfl

/-- C6 (amended): a record whose deserialization or run() throws is
still deleted from the durable queue and the error is surfaced, but
the failure aborts the drain pass rather than being contained to that
iteration: the error propagates out of processQueue, the failing
record is the last one attempted, and all remaining records stay
queued for a later drain pass. -/
theorem claim_c6_failed_record_deleted
    (db : DbState) (exec : QueuedTaskRecord → Except String Json) (nowMs : Int)
    (r : QueuedTaskRecord) (e : String)
    (hx : extractNextQueuedTask db nowMs = some r) (he : exec r = .error e) :
    processQueue db exec nowMs = (.error e, deleteQueuedTask db r.id, [r.id]) := by
  rw [processQueue_unfold, hx]
  simp [runTask, he]

/-- Single-record queue for the C6 witness. -/
def c6wdb : DbState := { cache := [], queue := [c6A], nextId := 2 }

/-- Witness: the amended C6 at a concrete queue. -/
theorem claim_c6_failed_record_deleted_witness :
    processQueue c6wdb c6exec 10000 = (.error "boom", deleteQueuedTask c6wdb c6A.id, [c6A.id]) :=
  claim_c6_failed_record_deleted c6wdb c6exec 10000 c6A "boom" (by decide) rfl

/-- Fresh storage for the C7 evaluation: empty queue, AUTOINCREMENT
counter at 1. -/
def c7db0 : DbState := { cache := [], queue := [], nextId := 1 }

/-- The task of the C7 evaluation. -/
def c7t : TaskModel := { name := "T", args := [], expiry := none }

/-- An execution that succeeds, for the C7 evaluation. -/
def c7exec : QueuedTaskRecord → Except String Json := fun _ => .ok Json.null

/-- C7 evaluated at the failing input: enqueueTask persists the
serialized record (the row receives id 1) and runs it inline to
successful completion — but the enqueued row is still in the durable
queue afterwards.  The inline delete targets the serialized record's
placeholder id 0 (the id returned by addQueuedTask is never written
back into the record), and AUTOINCREMENT ids start at 1, so the delete
matches no row. -/
theorem claim_c7_enqueued_record_survives :
    (enqueueTask c7t c7exec c7db0 0).1 = .ok Json.null ∧
    (enqueueTask c7t c7exec c7db0 0).2.queue =
      [{ id := 1, task_name := "T", arguments := "[]", added_at := 0, expires_at := none,
         priority := 0 }] := by
  constructor
  · rfl
  · decide

/-- The schedule of the C2 counterexample: caller 0 runs the body to
settlement, writes the (already expired) cache row and unlocks; only
then does caller 1 take its first step. -/
def c2sched : List RunEv :=
  [RunEv.caller 0, RunEv.settleOk 0 Json.null, RunEv.caller 0, RunEv.caller 0, RunEv.caller 1]

/-- C2 counterexample: two concurrent run() calls for the same key
(both in flight from the initial state) with a task whose expiry is
already past — expirySec 0, the stored form of the
WaitForRelaysConnectedTask policy new Date(0) — at clock second 1000.
Under c2sched, caller 0's body runs to completion and its cache write
is already expired; caller 1's cache check then misses, finds locksMap
empty again, and starts the body a second time: the machine records 2
body starts for 2 concurrent fingerprint-equal calls, where the claim
asserts exactly one. -/
theorem claim_c2_counterexample :
    (runSched (initMachine 2 1000 (some 0)) c2sched).starts = 2 := by
  decide

/-- C2 (amended): over every schedule of every number of concurrent
callers of one key: (i) at most one task body executes concurrently —
any two running executions coincide; (ii) a run() call that finds an
in-flight execution registered for its key never starts the body — a
step can only start a body when the cache check misses, locksMap has
no entry for the key, and (by the machine invariant) every earlier
execution has already settled, so a second body execution requires the
first to have settled with its cached result absent or expired; and
(iii) when exactly one body ran and settled successfully, every caller
that finished received that same settled result, whether it awaited
the in-flight promise, owned the execution, or decoded the cache
entry. -/
theorem claim_c2_dedup (n : Nat) (now : Int) (expirySec : Option Int) (evs : List RunEv) :
    (∀ e1 e2 : Nat,
      (runSched (initMachine n now expirySec) evs).execs[e1]? = some ExecStatus.running →
      (runSched (initMachine n now expirySec) evs).execs[e2]? = some ExecStatus.running →
      e1 = e2) ∧
    (∀ i : Nat,
      (stepCaller (runSched (initMachine n now expirySec) evs) i).starts =
        (runSched (initMachine n now expirySec) evs).starts + 1 →
      cacheLive (runSched (initMachine n now expirySec) evs) = false ∧
      (runSched (initMachine n now expirySec) evs).lock = none ∧
      ∀ e : Nat, (runSched (initMachine n now expirySec) evs).execs[e]? ≠
        some ExecStatus.running) ∧
    (∀ v : Json, (runSched (initMachine n now expirySec) evs).execs = [ExecStatus.ok v] →
      ∀ (i : Nat) (r : Option Json),
        (runSched (initMachine n now expirySec) evs).callers[i]? =
          some (CallerPc.done r) → r = some v) := by
  have hI := runInv_runSched (initMachine n now expirySec) evs (runInv_init n now expirySec)
  exact ⟨runMutex hI, fun i h => start_conditions hI i h,
    fun v hex i r h => single_exec_same_result hI v hex i r h⟩

/-- The schedule of the C2 witness: one caller runs to completion. -/
def c2wsched : List RunEv :=
  [RunEv.caller 0, RunEv.settleOk 0 Json.null, RunEv.caller 0, RunEv.caller 0]

/-- Witness: C2's same-result component at a concrete schedule. -/
theorem claim_c2_dedup_witness :
    (runSched (initMachine 1 1000 none) c2wsched).execs = [ExecStatus.ok Json.null] ∧
    (runSched (initMachine 1 1000 none) c2wsched).callers[0]? =
      some (CallerPc.done (some Json.null)) ∧
    (some Json.null : Option Json) = some Json.null :=
  ⟨rfl, rfl, (claim_c2_dedup 1 1000 none c2wsched).2.2 Json.null rfl 0 (some Json.null) rfl⟩

/-- C8: the fingerprint is a pure function of the argument tuple with
every function-valued leaf replaced by a fixed marker: two tuples that
agree after erasing function identities — in particular any tuple with
itself (determinism, across nested objects and large integers), and
any two tuples differing only in function-valued leaves — produce the
same digest. -/
theorem claim_c8_fingerprint (a b : List AVal) (h : eraseList a = eraseList b) :
    jsonArgumentsHash a = jsonArgumentsHash b := by
  rw [← jsonArgumentsHash_erase a, ← jsonArgumentsHash_erase b, h]

/-- A tuple with a nested object, a large integer and a function. -/
def c8a : List AVal :=
  [AVal.obj [("x", AVal.bigint 123456789012345678901234567890), ("y", AVal.arr [AVal.num 1])],
   AVal.func 1]

/-- The same tuple with a different function value. -/
def c8b : List AVal :=
  [AVal.obj [("x", AVal.bigint 123456789012345678901234567890), ("y", AVal.arr [AVal.num 1])],
   AVal.func 2]

/-- Witness: C8 on two tuples differing only in their function leaf. -/
theorem claim_c8_fingerprint_witness :
    eraseList c8a = eraseList c8b ∧ jsonArgumentsHash c8a = jsonArgumentsHash c8b :=
  ⟨rfl, claim_c8_fingerprint c8a c8b rfl⟩

/-- C9: the WaitForRelaysConnected body polls the connectivity probe
with a fixed 1000 ms sleep after each failed poll, up to 5 attempts: a
probe reporting connected on the 3rd poll resolves after exactly 3
polls (with the two 1-second sleeps in between); a probe that never
reports connected is polled exactly 5 times and then the body
rejects. -/
theorem claim_c9_wait_for_relays (probe1 probe2 : Nat → Bool)
    (h1 : probe1 0 = false) (h2 : probe1 1 = false) (h3 : probe1 2 = true)
    (h4 : ∀ i, probe2 i = false) :
    waitForRelaysBody probe1 = (true, 3, [1000, 1000]) ∧
    waitForRelaysBody probe2 = (false, 5, [1000, 1000, 1000, 1000, 1000]) := by
  constructor
  · unfold waitForRelaysBody
    rw [waitForRelaysLoop]
    simp only [h1, if_false, if_true, ite_true, ite_false, Bool.false_eq_true,
      show (0 : Nat) < 5 from by omega, List.nil_append]
    rw [waitForRelaysLoop]
    simp only [h2, Bool.false_eq_true, if_false, ite_false,
      show (1 : Nat) < 5 from by omega, if_true, ite_true]
    rw [waitForRelaysLoop]
    simp [h3]
  · unfold waitForRelaysBody
    rw [waitForRelaysLoop]
    simp only [h4, Bool.false_eq_true, if_false, ite_false, show (0 : Nat) < 5 from by omega,
      if_true, ite_true]
    rw [waitForRelaysLoop]
    simp only [h4, Bool.false_eq_true, if_false, ite_false, show (1 : Nat) < 5 from by omega,
      if_true, ite_true]
    rw [waitForRelaysLoop]
    simp only [h4, Bool.false_eq_true, if_false, ite_false, show (2 : Nat) < 5 from by omega,
      if_true, ite_true]
    rw [waitForRelaysLoop]
    simp only [h4, Bool.false_eq_true, if_false, ite_false, show (3 : Nat) < 5 from by omega,
      if_true, ite_true]
    rw [waitForRelaysLoop]
    simp only [h4, Bool.false_eq_true, if_false, ite_false, show (4 : Nat) < 5 from by omega,
      if_true, ite_true]
    rw [waitForRelaysLoop]
    simp

/-- Probe connected exactly on the 3rd poll. -/
def c9probe1 : Nat → Bool := fun i => i == 2

/-- Probe never connected. -/
def c9probe2 : Nat → Bool := fun _ => false

/-- Witness: C9 at concrete probes. -/
theorem claim_c9_wait_for_relays_witness :
    waitForRelaysBody c9probe1 = (true, 3, [1000, 1000]) ∧
    waitForRelaysBody c9probe2 = (false, 5, [1000, 1000, 1000, 1000, 1000]) :=
  claim_c9_wait_for_relays c9probe1 c9probe2 rfl rfl rfl (fun _ => rfl)

/-- Every resolveNames failure names the missing provider. -/
theorem resolveNames_error_shape (reg : List (String × Nat)) :
    ∀ (names : List String) (s : String), resolveNames reg names = .error s →
      ∃ n, s = "Provider " ++ n ++ " not found" := by
  intro names
  induction names with
  | nil =>
    intro s h
    simp [resolveNames] at h
  | cons n rest ih =>
    intro s h
    unfold resolveNames at h
    cases hg : getProvider reg n with
    | none =>
      simp only [hg] at h
      injection h with h2
      exact ⟨n, h2.symm⟩
    | some p =>
      simp only [hg] at h
      cases hr : resolveNames reg rest with
      | ok ps => rw [hr] at h; simp [Except.map] at h
      | error s2 =>
        rw [hr] at h
        simp only [Except.map] at h
        injection h with h2
        obtain ⟨m, hm⟩ := ih s2 hr
        exact ⟨m, by rw [← h2]; exact hm⟩

/-- A missing-provider message is never the DatabaseService message. -/
theorem provider_error_ne (n : String) :
    ("Provider " ++ n ++ " not found") ≠ "DatabaseService not found" := by
  intro h
  have h4 : ("Provider " ++ n ++ " not found").data.head? = some 'P' := by
    rw [String.data_append, String.data_append]
    rfl
  rw [h] at h4
  exact absurd h4 (by decide)

/-- C10: constructing any Task resolves 'DatabaseService' before any
declared provider name: when no provider is registered under
'DatabaseService' the constructor throws 'DatabaseService not found',
whatever the declared names are — also when 'DatabaseService' is not
among them and also when declared names are themselves unregistered;
and when 'DatabaseService' is registered, construction never throws
that message (any remaining failure names the missing declared
provider instead). -/
theorem claim_c10_hidden_dependency :
    (∀ (reg : List (String × Nat)) (names : List String),
      getProvider reg "DatabaseService" = none →
      resolveTaskProviders reg names = .error "DatabaseService not found") ∧
    (∀ (reg : List (String × Nat)) (names : List String) (db : Nat),
      getProvider reg "DatabaseService" = some db →
      resolveTaskProviders reg names ≠ .error "DatabaseService not found") := by
  constructor
  · intro reg names h
    unfold resolveTaskProviders
    rw [h]
  · intro reg names db h hcontra
    unfold resolveTaskProviders at hcontra
    rw [h] at hcontra
    cases hr : resolveNames reg names with
    | ok ps => rw [hr] at hcontra; simp [Except.map] at hcontra
    | error s =>
      rw [hr] at hcontra
      simp only [Except.map] at hcontra
      injection hcontra with h2
      obtain ⟨n, hn⟩ := resolveNames_error_shape reg names s hr
      exact provider_error_ne n (by rw [← hn, h2])

/-- Witness: C10 with a registry missing DatabaseService and a task
declaring only the registered Wallet provider. -/
theorem claim_c10_hidden_dependency_witness :
    getProvider [("Wallet", 7)] "DatabaseService" = none ∧
    resolveTaskProviders [("Wallet", 7)] ["Wallet"] = .error "DatabaseService not found" :=
  ⟨by decide, claim_c10_hidden_dependency.1 [("Wallet", 7)] ["Wallet"] (by decide)⟩

end PortalApp
